import Mathlib

/-!
Verification of the LyriXStudio lyrics conversion engine
(source file: src/utils/lyrics.ts).

The engine is embedded shallowly:

* JavaScript numbers are modelled by `JSNum`: NaN, the two signed
  infinities, or an exact finite value carried as a rational.  Binary
  floating point rounding is idealised away; all arithmetic is exact.
* JavaScript strings are modelled as `List Char` (`JStr`), so that the
  string scanning done by the parsers can be reasoned about by structural
  induction.
* `Math.random`-based id generation (`generateId`) is modelled as the
  constant 0: ids are opaque and no verified property depends on their
  values.

Definitions mirror the source line by line; the doc comment of each
definition names the function of src/utils/lyrics.ts it embeds.
-/

namespace LyriX

/-- JavaScript strings, modelled as lists of characters. -/
abbrev JStr := List Char

/-- Whitespace recognised by String.prototype.trim and by the leading
whitespace skipping of parseInt / parseFloat. -/
def isWS (c : Char) : Bool :=
  c = ' ' || c = '\t' || c = '\n' || c = '\r' || c = '\x0b' || c = '\x0c'

def trimLeft (s : JStr) : JStr := s.dropWhile isWS

def trimRight (s : JStr) : JStr := (s.reverse.dropWhile isWS).reverse

/-- String.prototype.trim. -/
def jsTrim (s : JStr) : JStr := trimRight (trimLeft s)

/-- A JavaScript number: NaN, +Infinity / -Infinity, or a finite value
(idealised as an exact rational). -/
inductive JSNum where
  | nan : JSNum
  | inf : Bool → JSNum
  | num : ℚ → JSNum
deriving DecidableEq, Repr

namespace JSNum

/-- Number.isNaN / the global isNaN on a number argument. -/
def isNaN : JSNum → Bool
  | nan => true
  | _ => false

/-- the JS comparison x < 0 (false for NaN). -/
def ltz : JSNum → Bool
  | nan => false
  | inf p => !p
  | num a => a < 0

/-- the JS comparison x > 0 (false for NaN). -/
def gtz : JSNum → Bool
  | nan => false
  | inf p => p
  | num a => 0 < a

/-- JS addition. -/
def add : JSNum → JSNum → JSNum
  | nan, _ => nan
  | _, nan => nan
  | inf p, inf q => if p = q then inf p else nan
  | inf p, num _ => inf p
  | num _, inf q => inf q
  | num a, num b => num (a + b)

/-- JS unary minus. -/
def neg : JSNum → JSNum
  | nan => nan
  | inf p => inf !p
  | num a => num (-a)

/-- JS subtraction. -/
def sub (x y : JSNum) : JSNum := add x (neg y)

/-- JS multiplication. -/
def mul : JSNum → JSNum → JSNum
  | nan, _ => nan
  | _, nan => nan
  | inf p, inf q => inf (p = q)
  | inf p, num b => if b = 0 then nan else inf (p = decide (0 < b))
  | num a, inf q => if a = 0 then nan else inf (decide (0 < a) = q)
  | num a, num b => num (a * b)

/-- JS division by a positive finite constant (the only divisions the
source performs). -/
def divC (x : JSNum) (c : ℚ) : JSNum :=
  match x with
  | nan => nan
  | inf p => inf p
  | num a => num (a / c)

/-- truncation toward zero, as used by the JS remainder operator. -/
def ratTrunc (q : ℚ) : ℤ := if q < 0 then -⌊-q⌋ else ⌊q⌋

/-- JS remainder x % c for a positive finite constant c (the only
remainders the source takes).  The remainder of NaN or an infinity is
NaN. -/
def modC (x : JSNum) (c : ℚ) : JSNum :=
  match x with
  | nan => nan
  | inf _ => nan
  | num a => num (a - c * ratTrunc (a / c))

/-- Math.floor. -/
def floor : JSNum → JSNum
  | nan => nan
  | inf p => inf p
  | num a => num ⌊a⌋

/-- Math.max(0, x). -/
def max0 : JSNum → JSNum
  | nan => nan
  | inf p => if p then inf true else num 0
  | num a => num (max 0 a)

/-- JS truthiness of a number: NaN and 0 are falsy. -/
def truthy : JSNum → Bool
  | nan => false
  | inf _ => true
  | num a => a ≠ 0

/-- the JS comparison x > y (false when either side is NaN). -/
def gtB : JSNum → JSNum → Bool
  | nan, _ => false
  | _, nan => false
  | inf p, inf q => p && !q
  | inf p, num _ => p
  | num _, inf q => !q
  | num a, num b => b < a

/-- the JS comparison x >= y (false when either side is NaN). -/
def geB : JSNum → JSNum → Bool
  | nan, _ => false
  | _, nan => false
  | inf p, inf q => p || !q
  | inf p, num _ => p
  | num _, inf q => !q
  | num a, num b => b ≤ a

end JSNum

/-- decimal digits of a natural number, most significant first. -/
def natDigits (n : Nat) : JStr :=
  if h : n < 10 then [Char.ofNat (48 + n)]
  else natDigits (n / 10) ++ [Char.ofNat (48 + n % 10)]
decreasing_by exact Nat.div_lt_self (by omega) (by omega)

/-- Number.prototype.toString for the values this code path ever prints:
NaN, the infinities, and integral finite values (every finite value
printed by formatTimestamp is a Math.floor result). -/
def JSNum.toIntStr : JSNum → JStr
  | .nan => "NaN".toList
  | .inf true => "Infinity".toList
  | .inf false => "-Infinity".toList
  | .num q => if q < 0 then '-' :: natDigits (-⌊q⌋).toNat else natDigits ⌊q⌋.toNat

/-- String.prototype.padStart with a single pad character. -/
def padStart (n : Nat) (c : Char) (s : JStr) : JStr :=
  List.replicate (n - s.length) c ++ s

/-- formatTimestamp (src/utils/lyrics.ts:8-30).  The TS precision
parameter has literal type 2 | 3; the source tests precision === 3, so any
other value takes the 2-digit branch. -/
def formatTimestamp (seconds : JSNum) (precision : Nat := 2) : JStr :=
  if seconds.isNaN || seconds.ltz then
    (if precision = 3 then "00:00.000" else "00:00.00").toList
  else
    let hours := (seconds.divC 3600).floor
    let minutes := ((seconds.modC 3600).divC 60).floor
    let secs := (seconds.modC 60).floor
    let ms := seconds.modC 1
    let mStr := padStart 2 '0' minutes.toIntStr
    let sStr := padStart 2 '0' secs.toIntStr
    let msStr :=
      if precision = 3 then padStart 3 '0' ((ms.mul (.num 1000)).floor).toIntStr
      else padStart 2 '0' ((ms.mul (.num 100)).floor).toIntStr
    let timeBase :=
      if hours.gtz then hours.toIntStr ++ [':'] ++ mStr ++ [':'] ++ sStr
      else mStr ++ [':'] ++ sStr
    timeBase ++ ['.'] ++ msStr

/-- the regex character class [0-9] (also the test '0' <= c && c <= '9'),
phrased on code points. -/
def isDigitCh (c : Char) : Bool := 48 ≤ c.toNat && c.toNat ≤ 57

def digitVal (c : Char) : Nat := c.toNat - 48

/-- the longest digit run at the front of a string, and the rest. -/
def takeDigits (s : JStr) : JStr × JStr := (s.takeWhile isDigitCh, s.dropWhile isDigitCh)

/-- decimal value of a digit string. -/
def digitsVal (ds : JStr) : Nat := ds.foldl (fun a c => 10 * a + digitVal c) 0

def jsParseIntMag (negSign : Bool) (s : JStr) : JSNum :=
  let ds := (takeDigits s).1
  if ds = [] then .nan
  else .num (if negSign then -(digitsVal ds : ℚ) else (digitsVal ds : ℚ))

/-- the global parseInt with radix 10: skip leading whitespace, optional
sign, then the longest digit run; NaN if there is none. -/
def jsParseInt (s : JStr) : JSNum :=
  let s1 := trimLeft s
  match s1 with
  | '-' :: r => jsParseIntMag true r
  | '+' :: r => jsParseIntMag false r
  | _ => jsParseIntMag false s1

/-- exponent suffix of a JS decimal literal; an e with no following
digits is not part of the accepted prefix. -/
def applyExp (mant : ℚ) (s : JStr) : ℚ :=
  let p := match s with
    | '-' :: r => (true, r)
    | '+' :: r => (false, r)
    | _ => (false, s)
  let eds := (takeDigits p.2).1
  if eds = [] then mant
  else if p.1 then mant / 10 ^ digitsVal eds else mant * 10 ^ digitsVal eds

def parseFloatMag (negSign : Bool) (s : JStr) : JSNum :=
  if "Infinity".toList.isPrefixOf s then .inf !negSign
  else
    let ip := takeDigits s
    let fr := match ip.2 with
      | '.' :: r => takeDigits r
      | _ => ([], ip.2)
    if ip.1 = [] ∧ fr.1 = [] then .nan
    else
      let mant : ℚ := digitsVal ip.1 + (digitsVal fr.1 : ℚ) / 10 ^ fr.1.length
      let v : ℚ := match fr.2 with
        | 'e' :: r => applyExp mant r
        | 'E' :: r => applyExp mant r
        | _ => mant
      .num (if negSign then -v else v)

/-- the global parseFloat: skip leading whitespace, optional sign, then
the longest prefix that is an Infinity literal or a decimal literal; NaN
if there is none. -/
def jsParseFloat (s : JStr) : JSNum :=
  let s1 := trimLeft s
  match s1 with
  | '-' :: r => parseFloatMag true r
  | '+' :: r => parseFloatMag false r
  | _ => parseFloatMag false s1

/-- String.prototype.split with a single-character separator. -/
def splitOn (sep : Char) : JStr → List JStr
  | [] => [[]]
  | c :: rest =>
    if c = sep then [] :: splitOn sep rest
    else
      match splitOn sep rest with
      | g :: gs => (c :: g) :: gs
      | [] => [[c]]

/-- the bracket-stripping done by parseTimestamp:
timeStr.trim().replace(square and angle brackets, empty). -/
def cleanTimeStr (timeStr : JStr) : JStr :=
  (jsTrim timeStr).filter fun c => !(c = '[' || c = ']' || c = '<' || c = '>')

/-- characters a formatted timestamp is made of. -/
def plainTimeChar (c : Char) : Bool := isDigitCh c || c = ':' || c = '.'

/-- parseTimestamp (src/utils/lyrics.ts:32-59).  The try/catch of the
source is dead code: parseInt and parseFloat never throw.  Note that the
three- and two-part branches propagate NaN from their components. -/
def parseTimestamp (timeStr : JStr) : JSNum :=
  if timeStr = [] then .num 0
  else
    let cleanStr := cleanTimeStr timeStr
    match splitOn ':' cleanStr with
    | [p0, p1, p2] =>
        ((jsParseInt p0).mul (.num 3600)).add
          (((jsParseInt p1).mul (.num 60)).add (jsParseFloat p2))
    | [p0, p1] => ((jsParseInt p0).mul (.num 60)).add (jsParseFloat p1)
    | _ => if !(jsParseFloat cleanStr).isNaN then jsParseFloat cleanStr else .num 0


/-! ### Data model (src/types.ts) -/

/-- generateId (src/utils/lyrics.ts:6) is Math.random-based; ids are
opaque and nothing verified depends on their values, so it is modelled as
an opaque constant. -/
def generateId : Nat := 0

/-- TimedWord (src/types.ts). -/
structure TimedWord where
  id : Nat
  text : JStr
  startTime : JSNum
  endTime : Option JSNum := none
  isBackground : Option Bool := none
deriving DecidableEq, Repr

/-- TimedLine (src/types.ts). -/
structure TimedLine where
  id : Nat
  startTime : JSNum
  endTime : Option JSNum := none
  words : List TimedWord
  rawText : JStr
  voice : Option JStr := none
  isBackground : Option Bool := none
  attributes : Option (List (JStr × JStr)) := none
deriving DecidableEq, Repr

/-- LyricsFormat (src/types.ts). -/
inductive LyricsFormat where
  | PLAIN
  | LRC
  | ELRC
  | TTML
deriving DecidableEq, Repr

/-- the dynamically keyed metadata object of the parsers, as a structure
of the fields the source ever assigns plus the open custom bag. -/
structure Metadata where
  title : JStr := []
  artist : JStr := []
  album : JStr := []
  offset : JSNum := .num 0
  custom : List (JStr × JStr) := []
  author : Option JStr := none
  createdBy : Option JStr := none
  creator : Option JStr := none
  version : Option JStr := none
  language : Option JStr := none
  songwriters : Option (List JStr) := none
deriving DecidableEq, Repr

/-- LyricsDocument (src/types.ts). -/
structure LyricsDocument where
  format : LyricsFormat
  lines : List TimedLine
  metadata : Metadata
deriving DecidableEq, Repr

/-! ### LRC / ELRC parser (src/utils/lyrics.ts:70-232) -/

/-- all nonempty digit prefixes of length at most n with their rests,
longest first: the backtracking order of a greedy regex quantifier
\d{1,n}. -/
def digitSplits : Nat → JStr → List (JStr × JStr)
  | 0, _ => []
  | _ + 1, [] => []
  | n + 1, c :: r =>
    if isDigitCh c then
      (digitSplits n r).map (fun p => (c :: p.1, p.2)) ++ [([c], r)]
    else []

/-- value of the optional fractional capture group: the source computes
parseFloat of the string "0." + (group or "0"). -/
def fracPart : Option JStr → ℚ
  | none => 0
  | some ds => (digitsVal ds : ℚ) / 10 ^ ds.length

/-- seconds value of a matched timestamp tag, exactly as the source
computes it from the capture groups (lines 112-126 and 157-169). -/
def tagTimeVal (d1 d2 : JStr) (d3 d4 : Option JStr) : ℚ :=
  match d3 with
  | some d3v =>
    (digitsVal d1 : ℚ) * 3600 + (digitsVal d2 : ℚ) * 60 + (digitsVal d3v : ℚ) + fracPart d4
  | none => (digitsVal d1 : ℚ) * 60 + (digitsVal d2 : ℚ) + fracPart d4

/-- the (?:\.(\d{1,3}))? CLOSE part of a timestamp regex, with the
backtracking order: fraction group first, then without it. -/
def matchTagFrac (closeCh : Char) (d1 d2 : JStr) (d3 : Option JStr) (s : JStr) :
    Option (ℚ × JStr) :=
  (match s with
   | '.' :: s3 =>
     (digitSplits 3 s3).findSome? fun (d4 : JStr × JStr) =>
       match d4.2 with
       | c :: r => if c = closeCh then some (tagTimeVal d1 d2 d3 (some d4.1), r) else none
       | [] => none
   | _ => none).orElse fun _ =>
  match s with
  | c :: r => if c = closeCh then some (tagTimeVal d1 d2 d3 none, r) else none
  | [] => none

/-- the (?::(\d{1,2}))? part: seconds group first, then without it. -/
def matchTagColon (closeCh : Char) (d1 d2 : JStr) (s : JStr) : Option (ℚ × JStr) :=
  (match s with
   | ':' :: s2 =>
     (digitSplits 2 s2).findSome? fun (d3 : JStr × JStr) =>
       matchTagFrac closeCh d1 d2 (some d3.1) d3.2
   | _ => none).orElse fun _ =>
  matchTagFrac closeCh d1 d2 none s

/-- a timestamp tag regex
open (\d{1,2}):(\d{1,2})(?::(\d{1,2}))?(?:\.(\d{1,3}))? close
matched at the start of the string; openCh/closeCh are square brackets
for the line regex (line 76) and angle brackets for the word regex
(line 156).  Returns seconds and the rest of the string. -/
def matchTimeTag (openCh closeCh : Char) (s : JStr) : Option (ℚ × JStr) :=
  match s with
  | c :: s1 =>
    if c = openCh then
      (digitSplits 2 s1).findSome? fun (d1 : JStr × JStr) =>
        match d1.2 with
        | ':' :: s2 =>
          (digitSplits 2 s2).findSome? fun (d2 : JStr × JStr) =>
            matchTagColon closeCh d1.1 d2.1 d2.2
        | _ => none
    else none
  | [] => none

/-- the first position in s where the line-timestamp regex of line 76
matches, with the seconds value and the match length: a regex search
scans forward, attempting the (backtracking) match at each successive
index. -/
def regexSearchLine : JStr → Option (Nat × ℚ × Nat)
  | [] => none
  | c :: r =>
    match matchTimeTag '[' ']' (c :: r) with
    | some (t, rest) => some (0, t, (c :: r).length - rest.length)
    | none =>
      match regexSearchLine r with
      | some (p, t, len) => some (p + 1, t, len)
      | none => none

/-- lineTimeRegex.exec(content) with the lastIndex state of the global
regex (line 76 builds it once per parseLRC call; every line shares it):
the search starts at lastIndex; on success lastIndex moves to the end
of the match, on failure (including a lastIndex beyond the string) it
resets to 0.  Returns the match as (index, seconds, length), and the
new lastIndex. -/
def lrcExec (content : JStr) (li : Nat) : Option (Nat × ℚ × Nat) × Nat :=
  if li > content.length then (none, 0)
  else
    match regexSearchLine (content.drop li) with
    | some (p, t, len) => (some (li + p, t, len), li + p + len)
    | none => (none, 0)

/-- the timestamp-stripping loop of parseLRC (lines 109-133) under the
shared regex state: an exec result is consumed only when its index is 0
(the matched prefix is then cut off, the rest trimmed, and lastIndex
reset to 0, line 129); a match elsewhere, or no match, breaks the loop
and leaves lastIndex as exec set it - state that leaks into the next
line.  Each accepted match consumes at least five characters, so the
fuel (one more than the length) is never exhausted. -/
def extractTimestampsAux : Nat → JStr → Nat → List ℚ × JStr × Nat
  | 0, content, li => ([], content, li)
  | fuel + 1, content, li =>
    match lrcExec content li with
    | (some (idx, t, len), li') =>
      if idx = 0 then
        let p := extractTimestampsAux fuel (jsTrim (content.drop len)) 0
        (t :: p.1, p.2)
      else ([], content, li')
    | (none, li') => ([], content, li')

/-- the collected timestamps, the remaining content, and the regex
lastIndex left behind for the next line. -/
def extractTimestamps (content : JStr) (li : Nat) : List ℚ × JStr × Nat :=
  extractTimestampsAux (content.length + 1) content li

/-- key characters of the metadata regex ^\[([a-zA-Z0-9-]+):(.*)\]$
(line 77). -/
def metaKeyChar (c : Char) : Bool := c.isAlpha || isDigitCh c || c = '-'

/-- the metadata regex of parseLRC, matched against a whole line (the
line carries no newline, so the dot matches every remaining character):
returns the key and value captures. -/
def matchMeta (content : JStr) : Option (JStr × JStr) :=
  match content with
  | '[' :: rest =>
    let key := rest.takeWhile metaKeyChar
    match rest.dropWhile metaKeyChar with
    | ':' :: tail =>
      if key = [] then none
      else if tail.getLast? = some ']' then some (key, tail.dropLast)
      else none
    | _ => none
  | _ => none

def toLowerStr (s : JStr) : JStr := s.map Char.toLower

/-- JS object property assignment on the open custom bag. -/
def assocSet (l : List (JStr × JStr)) (k v : JStr) : List (JStr × JStr) :=
  match l with
  | [] => [(k, v)]
  | (k0, v0) :: rest => if k0 = k then (k0, v) :: rest else (k0, v0) :: assocSet rest k v

/-- the metadata key dispatch of parseLRC (lines 92-101). -/
def applyMeta (m : Metadata) (key val : JStr) : Metadata :=
  if key = "ti".toList then { m with title := val }
  else if key = "ar".toList then { m with artist := val }
  else if key = "al".toList then { m with album := val }
  else if key = "au".toList then { m with author := some val }
  else if key = "by".toList then { m with createdBy := some val }
  else if key = "re".toList then { m with creator := some val }
  else if key = "ve".toList then { m with version := some val }
  else if key = "offset".toList then { m with offset := jsParseInt val }
  else if key = "la".toList then { m with language := some val }
  else { m with custom := assocSet m.custom key val }

def startsWithDigit : JStr → Bool
  | c :: _ => isDigitCh c
  | [] => false

/-- name characters of the voice regex ^([A-Za-z0-9\s]+):\s+(.*)
(line 140). -/
def voiceNameChar (c : Char) : Bool := c.isAlpha || isDigitCh c || isWS c

/-- the voice regex of parseLRC: a greedy name run followed by a colon
and at least one whitespace character; returns the name capture and the
remainder capture. -/
def matchVoice (s : JStr) : Option (JStr × JStr) :=
  let name := s.takeWhile voiceNameChar
  match s.dropWhile voiceNameChar with
  | ':' :: t =>
    if name = [] then none
    else if t.takeWhile isWS = [] then none
    else some (name, t.dropWhile isWS)
  | _ => none

/-- the word-timing presence test /<(\d{1,2}):(\d{1,2})/ (line 146),
checked at one position. -/
def wordTagHere (r : JStr) : Bool :=
  match r with
  | a :: ':' :: b :: _ => isDigitCh a && isDigitCh b
  | a :: b :: ':' :: c :: _ => isDigitCh a && isDigitCh b && isDigitCh c
  | _ => false

/-- the word-timing presence test, scanning every position. -/
def hasWordTag : JStr → Bool
  | [] => false
  | '<' :: r => wordTagHere r || hasWordTag r
  | _ :: r => hasWordTag r

/-- characters of the tag class [\d:.] of the word-splitting regex
(line 152). -/
def tagClassCh (c : Char) : Bool := isDigitCh c || c = ':' || c = '.'

/-- first occurrence of <[\d:.]+> in the string: returns the text
before, the tag itself, and the rest. -/
def findTag : JStr → Option (JStr × JStr × JStr)
  | [] => none
  | c :: r =>
    if c = '<' then
      match r.dropWhile tagClassCh with
      | '>' :: after =>
        if r.takeWhile tagClassCh = [] then
          (findTag r).map fun t => (c :: t.1, t.2.1, t.2.2)
        else some ([], c :: (r.takeWhile tagClassCh ++ ['>']), after)
      | _ => (findTag r).map fun t => (c :: t.1, t.2.1, t.2.2)
    else (findTag r).map fun t => (c :: t.1, t.2.1, t.2.2)

/-- content.split(/(<[\d:.]+>)/) (line 152): split at every tag, keeping
the tags (the capture group makes split keep separators).  Every found
tag consumes at least three characters, so the fuel is never
exhausted. -/
def splitTagsAux : Nat → JStr → List JStr
  | 0, s => [s]
  | fuel + 1, s =>
    match findTag s with
    | some (before, tag, after) => before :: tag :: splitTagsAux fuel after
    | none => [s]

def splitTags (s : JStr) : List JStr := splitTagsAux (s.length + 1) s

/-- content.split(/\s+/).filter(Boolean) (line 182): the whitespace
separated tokens. -/
def wsTokens : JStr → List JStr
  | [] => []
  | c :: r =>
    if isWS c then wsTokens r
    else (c :: r.takeWhile (fun d => !isWS d)) :: wsTokens (r.dropWhile (fun d => !isWS d))
termination_by s => s.length
decreasing_by
  · simp only [List.length_cons]
    omega
  · simp only [List.length_cons]
    exact Nat.lt_succ_of_le ((List.dropWhile_suffix _).sublist.length_le)

/-- one step of the ELRC word-building loop (lines 155-180): a part whose
tag regex matches moves the current word time, any other part with
nonempty trimmed text becomes a word at the current time. -/
def elrcStep (acc : ℚ × List TimedWord) (part : JStr) : ℚ × List TimedWord :=
  match matchTimeTag '<' '>' part with
  | some (t, _) => (t, acc.2)
  | none =>
    let wText := jsTrim part
    if wText ≠ [] then
      (acc.1, acc.2 ++ [{ id := generateId, text := wText, startTime := .num acc.1 }])
    else acc

/-- the ELRC word-building loop (lines 151-180). -/
def buildWordsELRC (startTime : ℚ) (parts : List JStr) : List TimedWord :=
  (parts.foldl elrcStep (startTime, [])).2

/-- the word-tag search done per part: part.match(tag regex) looks for
the first match at any position (line 156). -/
def searchTimeTagVal : JStr → Option ℚ
  | [] => none
  | c :: r =>
    match matchTimeTag '<' '>' (c :: r) with
    | some (t, _) => some t
    | none => searchTimeTagVal r

/-- the plain word-building branch (lines 181-190). -/
def buildWordsPlain (startTime : ℚ) (content : JStr) : List TimedWord :=
  (wsTokens content).map fun w =>
    { id := generateId, text := w, startTime := .num startTime }

/-- words.map(w => w.text).join(chr(32)) (line 192). -/
def joinSpace (l : List JStr) : JStr := List.intercalate [' '] l

/-- one TimedLine pushed per leading timestamp (lines 148-202). -/
def lrcBuildLine (voice : JStr) (isBackground hasW : Bool) (content : JStr)
    (startTime : ℚ) : TimedLine :=
  let words :=
    if hasW then
      buildWordsELRC startTime ((splitTags content).filter fun p => jsTrim p ≠ [])
    else buildWordsPlain startTime content
  let rawTextClean := joinSpace (words.map (·.text))
  { id := generateId, startTime := .num startTime, words,
    rawText := if rawTextClean ≠ [] then rawTextClean else content,
    voice := some voice, isBackground := some isBackground }

/-- the timestamped-line branch of the per-line loop (lines 106-203),
entered with the shared regex's lastIndex li and returning its new
value next to the produced lines. -/
def lrcTimestampLine (m : Metadata) (li : Nat) (content0 : JStr) :
    Metadata × Nat × List TimedLine :=
  let p := extractTimestamps content0 li
  if p.1 = [] then (m, p.2.2, [])
  else
    let content1 := p.2.1
    let isBackground :=
      decide (content1.head? = some '(') && decide (content1.getLast? = some ')')
    let pv :=
      match matchVoice content1 with
      | some (name, rest2) => (jsTrim name, jsTrim rest2)
      | none => ("v1".toList, content1)
    let hasW := hasWordTag pv.2
    (m, p.2.2, p.1.map (lrcBuildLine pv.1 isBackground hasW pv.2))

/-- one iteration of rawLines.forEach (lines 81-204); the early returns
(blank line, consumed metadata) never touch the regex, so its lastIndex
passes through them unchanged. -/
def lrcProcessLine (m : Metadata) (li : Nat) (rawLine : JStr) :
    Metadata × Nat × List TimedLine :=
  let content := jsTrim rawLine
  if content = [] then (m, li, [])
  else
    match matchMeta content with
    | some kv =>
      let key := jsTrim (toLowerStr kv.1)
      let val := jsTrim kv.2
      if !startsWithDigit key then (applyMeta m key val, li, [])
      else lrcTimestampLine m li content
    | none => lrcTimestampLine m li content

/-- text.split(/\r?\n/) (line 79). -/
def splitNewlines : JStr → List JStr
  | [] => [[]]
  | '\r' :: '\n' :: r => [] :: splitNewlines r
  | '\n' :: r => [] :: splitNewlines r
  | c :: r =>
    match splitNewlines r with
    | g :: gs => (c :: g) :: gs
    | [] => [[c]]

/-- the stays-before test under the JS comparator (a, b) => a - b: the
ES spec maps a NaN comparator result to 0, so NaN means tied. -/
def numLE (a b : JSNum) : Bool :=
  match JSNum.sub a b with
  | .nan => true
  | .inf p => !p
  | .num q => q ≤ 0

/-- the stays-before test of the stable sort under the comparator
(a, b) => a.startTime - b.startTime. -/
def startLE (a b : TimedLine) : Bool := numLE a.startTime b.startTime

def orderedInsertLine (x : TimedLine) : List TimedLine → List TimedLine
  | [] => [x]
  | y :: ys => if startLE y x then y :: orderedInsertLine x ys else x :: y :: ys

/-- lines.sort((a, b) => a.startTime - b.startTime) (line 206 and 435).
Array.prototype.sort is stable (ES2019), modelled as a stable insertion
sort: each element is inserted after every already-placed element that
compares less-or-tied. -/
def sortByStart (l : List TimedLine) : List TimedLine :=
  l.foldl (fun acc x => orderedInsertLine x acc) []

/-- the inner word end-time loop (lines 216-223). -/
def fixWordEnds (e : JSNum) : List TimedWord → List TimedWord
  | [] => []
  | [w] => [{ w with endTime := some e }]
  | w :: w2 :: rest => { w with endTime := some w2.startTime } :: fixWordEnds e (w2 :: rest)

/-- the end-time inference loop of parseLRC (lines 209-224): every line
but the last ends where the next starts; the last ends five seconds after
its own start; the same rule for words within a line, the last word
ending with the line. -/
def inferEndTimes : List TimedLine → List TimedLine
  | [] => []
  | [l] =>
    let e := JSNum.add l.startTime (.num 5)
    [{ l with endTime := some e, words := fixWordEnds e l.words }]
  | l :: l2 :: rest =>
    { l with endTime := some l2.startTime, words := fixWordEnds l2.startTime l.words } ::
      inferEndTimes (l2 :: rest)

/-- the songwriters fallback (lines 227-229). -/
def finalizeSongwriters (m : Metadata) : Metadata :=
  match m.author, m.songwriters with
  | some a, none =>
    if a ≠ [] then { m with songwriters := some ((splitOn ',' a).map jsTrim) } else m
  | _, _ => m

/-- the rawLines.forEach pass of parseLRC: the metadata object and the
lines array in encounter order, before sorting.  The lastIndex of the
shared lineTimeRegex (0 when the regex is built, line 76) is threaded
from line to line and projected away at the end. -/
def lrcCollect (text : JStr) : Metadata × List TimedLine :=
  let r := (splitNewlines text).foldl
    (fun (acc : Metadata × Nat × List TimedLine) rawLine =>
      let s := lrcProcessLine acc.1 acc.2.1 rawLine
      (s.1, s.2.1, acc.2.2 ++ s.2.2))
    ({}, 0, [])
  (r.1, r.2.2)

/-- parseLRC (src/utils/lyrics.ts:70-232). -/
def parseLRC (text : JStr) : LyricsDocument :=
  { format := .LRC,
    lines := inferEndTimes (sortByStart (lrcCollect text).2),
    metadata := finalizeSongwriters (lrcCollect text).1 }

/-- parseELRC (src/utils/lyrics.ts:234-238). -/
def parseELRC (text : JStr) : LyricsDocument :=
  let base := parseLRC text
  { base with format := .ELRC }

/-! ### Format detection (src/utils/lyrics.ts:63-68) -/

/-- the ELRC detection regex /<[0-9]{1,2}:[0-9]{2}(?:\.[0-9]{1,3})?>/
checked at one position. -/
def elrcTagAt (s : JStr) : Bool :=
  match s with
  | '<' :: r =>
    (digitSplits 2 r).any fun d1 =>
      match d1.2 with
      | ':' :: a :: b :: rest =>
        isDigitCh a && isDigitCh b &&
          (match rest with
           | '>' :: _ => true
           | '.' :: r2 =>
             (digitSplits 3 r2).any fun d4 =>
               match d4.2 with
               | '>' :: _ => true
               | _ => false
           | _ => false)
      | _ => false
  | _ => false

def hasELRCTag : JStr → Bool
  | [] => false
  | c :: r => elrcTagAt (c :: r) || hasELRCTag r

/-- the LRC detection regex /\[[0-9]{1,3}:[0-9]{2}/ checked at one
position. -/
def lrcTagAt (s : JStr) : Bool :=
  match s with
  | '[' :: r =>
    (digitSplits 3 r).any fun d1 =>
      match d1.2 with
      | ':' :: a :: b :: _ => isDigitCh a && isDigitCh b
      | _ => false
  | _ => false

def hasLRCTag : JStr → Bool
  | [] => false
  | c :: r => lrcTagAt (c :: r) || hasLRCTag r

/-- String.prototype.includes. -/
def strIncludes (needle : JStr) : JStr → Bool
  | [] => needle.isPrefixOf []
  | c :: r => needle.isPrefixOf (c :: r) || strIncludes needle r

/-- detectFormat (src/utils/lyrics.ts:63-68). -/
def detectFormat (text : JStr) : LyricsFormat :=
  if strIncludes "<tt".toList text ||
      strIncludes "xmlns=\"http://www.w3.org/ns/ttml\"".toList text then .TTML
  else if hasELRCTag text then .ELRC
  else if hasLRCTag text then .LRC
  else .PLAIN

/-! ### Shift utility (src/utils/lyrics.ts:580-592) -/

/-- the optional end-time shift: endTime ? max(0, endTime + offset) :
undefined — a falsy end time (absent, zero or NaN) becomes undefined. -/
def shiftEnd (offsetSeconds : JSNum) : Option JSNum → Option JSNum
  | some e => if e.truthy then some ((e.add offsetSeconds).max0) else none
  | none => none

/-- shiftTimestamps (src/utils/lyrics.ts:580-592). -/
def shiftTimestamps (doc : LyricsDocument) (offsetSeconds : JSNum) : LyricsDocument :=
  { doc with
    lines := doc.lines.map fun line =>
      { line with
        startTime := (line.startTime.add offsetSeconds).max0,
        endTime := shiftEnd offsetSeconds line.endTime,
        words := line.words.map fun w =>
          { w with
            startTime := (w.startTime.add offsetSeconds).max0,
            endTime := shiftEnd offsetSeconds w.endTime } } }


/-! ### TTML parser (src/utils/lyrics.ts:240-438)

DOMParser is a browser API, external to the repository; its output is
modelled abstractly as a tree of elements and text nodes and the parser
is embedded over that tree.  Namespace-URI resolution (hasAttributeNS,
getElementsByTagNameNS) is not modelled: those lookups fail and the
source's prefix-based fallbacks take over, which is the behaviour on
documents using the conventional ttm:/itunes: prefixes. -/

inductive XMLNode where
  | element (tag : JStr) (attrs : List (JStr × JStr)) (children : List XMLNode)
  | text (content : JStr)

/-- getElementsByTagName: every descendant element with the given tag, in
document order. -/
def getElementsByTagName (tag : JStr) : XMLNode → List XMLNode
  | .text _ => []
  | .element _ _ children =>
    children.attach.foldr
      (fun c acc =>
        (match c.1 with
         | .element t _ _ => if t = tag then [c.1] else []
         | .text _ => []) ++ getElementsByTagName tag c.1 ++ acc)
      []
decreasing_by
  have := List.sizeOf_lt_of_mem c.2
  simp only [XMLNode.element.sizeOf_spec]
  omega

/-- Element.getAttribute. -/
def xmlGetAttribute (attrs : List (JStr × JStr)) (name : JStr) : Option JStr :=
  (attrs.find? fun a => a.1 = name).map fun a => a.2

/-- Attr.localName: the part after the prefix. -/
def localNamePart (s : JStr) : JStr :=
  match splitOn ':' s with
  | _ :: r :: rs => List.intercalate [':'] (r :: rs)
  | _ => s

/-- the namespace-tolerant getAttr helper (lines 255-268), with the
namespace-URI branch unmodelled (see above): exact name first, then, for
prefixed names, any attribute whose full name or local name matches. -/
def getAttrOf (attrs : List (JStr × JStr)) (name : JStr) : Option JStr :=
  match xmlGetAttribute attrs name with
  | some v => some v
  | none =>
    match splitOn ':' name with
    | _ :: p1 :: _ =>
      (attrs.find? fun a => a.1 = name || localNamePart a.1 = p1).map fun a => a.2
    | _ => none

/-- JS truthiness of a string-or-null value. -/
def strTruthy : Option JStr → Bool
  | some s => s ≠ []
  | none => false

/-- the JS expression a || b on string-or-null values. -/
def jsOrStr (a b : Option JStr) : Option JStr := if strTruthy a then a else b

/-- Node.textContent: concatenation of all descendant text. -/
def xmlTextContent : XMLNode → JStr
  | .text s => s
  | .element _ _ children =>
    children.attach.foldr (fun c acc => xmlTextContent c.1 ++ acc) []
decreasing_by
  have := List.sizeOf_lt_of_mem c.2
  simp only [XMLNode.element.sizeOf_spec]
  omega

/-- the tolerant time parser of parseTTML (lines 332-339): clock time via
parseTimestamp (which may yield NaN), an ms- or s-suffixed number, or a
bare number (undefined when unparseable). -/
def parseTime (t : Option JStr) : Option JSNum :=
  match t with
  | none => none
  | some ts =>
    if ts = [] then none
    else if strIncludes [':'] ts then some (parseTimestamp ts)
    else if "ms".toList.isSuffixOf ts then some ((jsParseFloat ts).divC 1000)
    else if ['s'].isSuffixOf ts then some (jsParseFloat ts)
    else
      match jsParseFloat ts with
      | .nan => none
      | v => some v

/-- the JS expression parseTime(x) || 0 (line 349). -/
def orZeroNum (x : Option JSNum) : JSNum :=
  match x with
  | some v => if v.truthy then v else .num 0
  | none => .num 0

/-- Map.get on the agent map. -/
def assocGet (l : List (JStr × JStr)) (k : JStr) : Option JStr :=
  (l.find? fun a => a.1 = k).map fun a => a.2

/-- the backward end-time fill (lines 403-412), on the reversed suffix:
set the end time while the word starts at or after the effective start
and has no end time yet; stop at the first word that fails. -/
def backFillRev (eff e : JSNum) : List TimedWord → List TimedWord
  | [] => []
  | w :: ws =>
    if w.startTime.geB eff && decide (w.endTime = none) then
      { w with endTime := some e } :: backFillRev eff e ws
    else w :: ws

def backFill (eff e : JSNum) (ws : List TimedWord) : List TimedWord :=
  (backFillRev eff e ws.reverse).reverse

/-- the recursive word extraction of parseTTML (lines 370-414). -/
def ttmlTraverse (node : XMLNode) (currentBg : Bool) (currentStart : JSNum)
    (words : List TimedWord) : List TimedWord :=
  match node with
  | .text s =>
    let t := jsTrim s
    if t ≠ [] then
      words ++ [{ id := generateId, text := t, startTime := currentStart,
                  isBackground := some currentBg }]
    else words
  | .element tag attrs children =>
    if toLowerStr tag = "br".toList then words
    else
      let beginA := getAttrOf attrs "begin".toList
      let endA := getAttrOf attrs "end".toList
      let role := jsOrStr (getAttrOf attrs "role".toList)
        (getAttrOf attrs "ttm:role".toList)
      let startTime := parseTime beginA
      let endTime := parseTime endA
      let isBg := currentBg || decide (role = some "x-bg".toList)
      let effectiveStart := match startTime with
        | some v => v
        | none => currentStart
      let words2 := children.attach.foldl
        (fun ws c => ttmlTraverse c.1 isBg effectiveStart ws) words
      match endTime with
      | some e => backFill effectiveStart e words2
      | none => words2
decreasing_by
  have := List.sizeOf_lt_of_mem c.2
  simp only [XMLNode.element.sizeOf_spec]
  omega

/-- one p element turned into a TimedLine (lines 346-432); none when the
line has neither words nor raw text. -/
def ttmlProcessP (agentMap : List (JStr × JStr)) (p : XMLNode) : Option TimedLine :=
  match p with
  | .text _ => none
  | .element _ attrs children =>
    let pStart := orZeroNum (parseTime (getAttrOf attrs "begin".toList))
    let pEndTime := parseTime (getAttrOf attrs "end".toList)
    let voiceId := jsOrStr (jsOrStr (jsOrStr (getAttrOf attrs "agent".toList)
      (getAttrOf attrs "ttm:agent".toList)) (getAttrOf attrs "role".toList))
      (getAttrOf attrs "ttm:role".toList)
    let voice : Option JStr :=
      match voiceId with
      | some vid =>
        if vid = [] then none
        else some (match assocGet agentMap vid with
          | some nm => if nm ≠ [] then nm else vid
          | none => vid)
      | none => none
    let attributes := attrs.filter fun a =>
      "itunes:".toList.isPrefixOf a.1 || a.1 = "key".toList
    let pRole := jsOrStr (getAttrOf attrs "role".toList)
      (getAttrOf attrs "ttm:role".toList)
    let isLineBg := decide (pRole = some "x-bg".toList) ||
      (match xmlGetAttribute attrs "style".toList with
       | some st => strIncludes "bg".toList st
       | none => false) ||
      (match jsTrim (xmlTextContent p) with
       | c :: _ => c = '('
       | [] => false)
    let words := children.foldl (fun ws c => ttmlTraverse c isLineBg pStart ws) []
    let rawText := joinSpace (words.map fun w => w.text)
    if words.length > 0 ∨ rawText ≠ [] then
      some { id := generateId, startTime := pStart, endTime := pEndTime, words,
             rawText, voice, isBackground := some isLineBg,
             attributes := some attributes }
    else none

/-- the agent map built from head (lines 279-295). -/
def ttmlAgents (head : XMLNode) : List (JStr × JStr) :=
  (getElementsByTagName "ttm:agent".toList head).foldl
    (fun mp ag =>
      match ag with
      | .element _ attrs _ =>
        (match xmlGetAttribute attrs "xml:id".toList with
         | some idv =>
           if idv = [] then mp
           else
             match (getElementsByTagName "ttm:name".toList ag).head? with
             | some nt =>
               let txt := xmlTextContent nt
               if txt ≠ [] then assocSet mp idv txt else assocSet mp idv idv
             | none => assocSet mp idv idv
         | none => mp)
      | .text _ => mp)
    []

/-- the getMeta fallback chain (lines 298-307), with the namespace lookup
unmodelled: the ttm: prefixed tag, then the plain tag. -/
def ttmlGetMeta (head : XMLNode) (tagName : JStr) : Option JStr :=
  match (getElementsByTagName ("ttm:".toList ++ tagName) head).head? with
  | some t2 => some (xmlTextContent t2)
  | none =>
    match (getElementsByTagName tagName head).head? with
    | some t3 => some (xmlTextContent t3)
    | none => none

/-- the songwriters extraction (lines 316-325); some when the assignment
to metadata.songwriters happens. -/
def ttmlSongwriters (head : XMLNode) : Option (List JStr) :=
  match ((getElementsByTagName "iTunesMetadata".toList head).head?).orElse
      (fun _ => (getElementsByTagName "itunes:iTunesMetadata".toList head).head?) with
  | none => none
  | some im =>
    match (getElementsByTagName "songwriters".toList im).head? with
    | none => none
    | some sw =>
      some ((getElementsByTagName "songwriter".toList sw).filterMap fun sn =>
        let t := xmlTextContent sn
        if t ≠ [] then some t else none)

/-- the root element's attribute (xmlDoc.documentElement); the model
passes the root element as the document. -/
def xmlRootGetAttr (n : XMLNode) (name : JStr) : Option JStr :=
  match n with
  | .element _ attrs _ => xmlGetAttribute attrs name
  | .text _ => none

/-- the metadata half of parseTTML (lines 245, 270-326): the agent map
and the metadata object. -/
def ttmlMetadata (xmlDoc : XMLNode) : List (JStr × JStr) × Metadata :=
  let base : Metadata := { songwriters := some [] }
  match (getElementsByTagName "head".toList xmlDoc).head? with
  | none => ([], base)
  | some head =>
    let m1 := match xmlRootGetAttr xmlDoc "xml:lang".toList with
      | some lang => if lang ≠ [] then { base with language := some lang } else base
      | none => base
    let agentMap := ttmlAgents head
    let m2 := match ttmlGetMeta head "title".toList with
      | some t => if t ≠ [] then { m1 with title := t } else m1
      | none => m1
    let m3 := match ttmlGetMeta head "artist".toList with
      | some t => if t ≠ [] then { m2 with artist := t } else m2
      | none => m2
    let m4 := match ttmlSongwriters head with
      | some ns => { m3 with songwriters := some ns }
      | none => m3
    (agentMap, m4)

/-- the body line collection of parseTTML (lines 341-433), in document
(encounter) order, before sorting. -/
def ttmlCollectLines (agentMap : List (JStr × JStr)) (body : XMLNode) : List TimedLine :=
  let divs := getElementsByTagName "div".toList body
  let containers := if divs.length > 0 then divs else [body]
  containers.foldl
    (fun acc container =>
      acc ++ (getElementsByTagName "p".toList container).filterMap (ttmlProcessP agentMap))
    []

/-- parseTTML (src/utils/lyrics.ts:240-438) over the abstract DOM tree. -/
def parseTTML (xmlDoc : XMLNode) : LyricsDocument :=
  let am := ttmlMetadata xmlDoc
  match (getElementsByTagName "body".toList xmlDoc).head? with
  | none => { format := .TTML, lines := [], metadata := am.2 }
  | some body =>
    { format := .TTML,
      lines := sortByStart (ttmlCollectLines am.1 body),
      metadata := am.2 }

/-! ### parseLyrics (src/utils/lyrics.ts:440-456) -/

/-- the Plain fallback branch of parseLyrics (lines 447-454). -/
def parsePlainLines (text : JStr) : List TimedLine :=
  ((splitNewlines text).filter fun l => jsTrim l ≠ []).map fun l =>
    { id := generateId, startTime := .num 0,
      words := (wsTokens (jsTrim l)).map fun w =>
        { id := generateId, text := w, startTime := .num 0 },
      rawText := jsTrim l, voice := some "v1".toList }

/-- parseLyrics: dispatch on the given or detected format.  The DOMParser
call of the TTML branch is abstracted as the domParse argument. -/
def parseLyrics (text : JStr) (format : Option LyricsFormat)
    (domParse : JStr → XMLNode) : LyricsDocument :=
  let detected := match format with
    | some f => f
    | none => detectFormat text
  match detected with
  | .LRC => parseLRC text
  | .ELRC => parseELRC text
  | .TTML => parseTTML (domParse text)
  | .PLAIN => { format := .PLAIN, lines := parsePlainLines text, metadata := {} }

/-! ### generateTTML (src/utils/lyrics.ts:501-578) -/

/-- Array.from(new Set(...)): first-occurrence deduplication. -/
def dedupeAux : List JStr → List JStr → List JStr
  | [], _ => []
  | x :: r, seen => if x ∈ seen then dedupeAux r seen else x :: dedupeAux r (x :: seen)

def dedupe (l : List JStr) : List JStr := dedupeAux l []

/-- the JS expression l.voice || chr(118) chr(49). -/
def voiceOrV1 (v : Option JStr) : JStr :=
  match v with
  | some s => if s ≠ [] then s else "v1".toList
  | none => "v1".toList

/-- the timing-mode computation of generateTTML (lines 507-512): Word
when some line has more than one word and some word starts more than
0.05 s (exactly 1/20 in the rational idealisation) after the line's own
start, Line otherwise. -/
def ttmlTimingMode (doc : LyricsDocument) : JStr :=
  let hasWordSync := doc.lines.any fun l =>
    decide (l.words.length > 1) &&
      l.words.any fun w => w.startTime.gtB (l.startTime.add (.num (1/20)))
  if hasWordSync then "Word".toList else "Line".toList

/-- the agent registry of generateTTML (lines 503-505). -/
def ttmlAgentMap (doc : LyricsDocument) : List (JStr × JStr) :=
  (dedupe (doc.lines.map fun l => voiceOrV1 l.voice)).enum.map fun p =>
    (p.2, 'v' :: natDigits (p.1 + 1))

/-- the template text before the interpolated timing mode. -/
def ttmlHeadPre : JStr :=
  ("<?xml version=\"1.0\" encoding=\"UTF-8\"?>\n" ++
   "<tt xmlns=\"http://www.w3.org/ns/ttml\" \n" ++
   "    xmlns:itunes=\"http://music.apple.com/lyric-ttml-internal\" \n" ++
   "    xmlns:ttm=\"http://www.w3.org/ns/ttml#metadata\" \n" ++
   "    xmlns:tts=\"http://www.w3.org/ns/ttml#styling\"\n" ++
   "    itunes:timing=\"").toList

/-- the head/metadata part of the template after the timing mode
(lines 523-547). -/
def ttmlHeadPost (doc : LyricsDocument) : JStr :=
  let voices := dedupe (doc.lines.map fun l => voiceOrV1 l.voice)
  let agentMap := ttmlAgentMap doc
  let songwriters := match doc.metadata.songwriters with
    | some sws => sws
    | none =>
      match doc.metadata.author with
      | some a => if a ≠ [] then (splitOn ',' a).map jsTrim else []
      | none => []
  ("\"\n    xml:lang=\"").toList ++
  (match doc.metadata.language with
   | some lang => if lang ≠ [] then lang else "en".toList
   | none => "en".toList) ++
  ("\">\n  <head>\n    <metadata>\n      ").toList ++
  (if doc.metadata.title ≠ [] then
    "<title>".toList ++ doc.metadata.title ++ "</title>".toList
   else []) ++
  "\n      ".toList ++
  (if doc.metadata.artist ≠ [] then
    ("<ttm:agent type=\"person\" xml:id=\"artist\"><ttm:name type=\"full\">").toList ++
      doc.metadata.artist ++ "</ttm:name></ttm:agent>".toList
   else []) ++
  "\n      ".toList ++
  (voices.foldr
    (fun v acc =>
      ("\n      <ttm:agent type=\"person\" xml:id=\"").toList ++
      (match assocGet agentMap v with | some i => i | none => []) ++
      ("\">\n        <ttm:name type=\"full\">").toList ++ v ++
      ("</ttm:name>\n      </ttm:agent>").toList ++ acc)
    []) ++
  ("\n      <iTunesMetadata>\n         <songwriters>\n            ").toList ++
  List.intercalate ("\n            ".toList)
    (songwriters.map fun sw => "<songwriter>".toList ++ sw ++ "</songwriter>".toList) ++
  ("\n         </songwriters>\n      </iTunesMetadata>\n    </metadata>\n" ++
   "    <styling>\n      <style xml:id=\"default\" tts:color=\"#FFFFFF\"" ++
   " tts:fontSize=\"32px\" tts:fontFamily=\"sans-serif\" />\n    </styling>\n" ++
   "    <layout>\n      <region xml:id=\"bottom\" tts:textAlign=\"center\"" ++
   " tts:displayAlign=\"after\" />\n    </layout>\n  </head>\n" ++
   "  <body region=\"bottom\">\n    <div itunes:songPart=\"Verse\">\n").toList

/-- one word span (lines 564-569). -/
def ttmlWordStr (w : TimedWord) : JStr :=
  let wStart := formatTimestamp w.startTime 3
  let wEnd := match w.endTime with
    | some e => if e.truthy then formatTimestamp e 3
        else formatTimestamp (w.startTime.add (.num (1/2))) 3
    | none => formatTimestamp (w.startTime.add (.num (1/2))) 3
  let bgRole := match w.isBackground with
    | some true => (" ttm:role=\"x-bg\"").toList
    | _ => []
  ("        <span begin=\"").toList ++ wStart ++ ("\" end=\"").toList ++ wEnd ++
    ("\"").toList ++ bgRole ++ (">").toList ++ w.text ++ ("</span>\n").toList

/-- one p element of the body (lines 549-572); next is
doc.lines[i + 1]. -/
def ttmlLineStr (agentMap : List (JStr × JStr)) (i : Nat) (line : TimedLine)
    (next : Option TimedLine) : JStr :=
  let fallbackEnd := formatTimestamp
    (match next with
     | some nl => if nl.startTime.truthy then nl.startTime
         else line.startTime.add (.num 5)
     | none => line.startTime.add (.num 5)) 3
  let endStr := match line.endTime with
    | some e => if e.truthy then formatTimestamp e 3 else fallbackEnd
    | none => fallbackEnd
  let agentId := match assocGet agentMap (voiceOrV1 line.voice) with
    | some a => if a ≠ [] then a else "v1".toList
    | none => "v1".toList
  let attrStr := match line.attributes with
    | some attrs => attrs.foldr (fun kv acc =>
        [' '] ++ kv.1 ++ ("=\"").toList ++ kv.2 ++ ("\"").toList ++ acc) []
    | none => (" itunes:key=\"L").toList ++ natDigits (i + 1) ++ ("\"").toList
  ("      <p begin=\"").toList ++ formatTimestamp line.startTime 3 ++
    ("\" end=\"").toList ++ endStr ++ ("\" ttm:agent=\"").toList ++ agentId ++
    ("\"").toList ++ attrStr ++ (">\n").toList ++
  (line.words.foldr (fun w acc => ttmlWordStr w ++ acc) []) ++
  ("      </p>\n").toList

def ttmlLinesStr (agentMap : List (JStr × JStr)) : Nat → List TimedLine → JStr
  | _, [] => []
  | i, l :: rest =>
    ttmlLineStr agentMap i l rest.head? ++ ttmlLinesStr agentMap (i + 1) rest

/-- the template text after the last line (lines 574-576). -/
def ttmlTail : JStr := ("    </div>\n  </body>\n</tt>").toList

/-- everything generateTTML emits after the timing mode. -/
def ttmlAfterTiming (doc : LyricsDocument) : JStr :=
  ttmlHeadPost doc ++ ttmlLinesStr (ttmlAgentMap doc) 0 doc.lines ++ ttmlTail

/-- generateTTML (src/utils/lyrics.ts:501-578). -/
def generateTTML (doc : LyricsDocument) : JStr :=
  ttmlHeadPre ++ ttmlTimingMode doc ++ ttmlAfterTiming doc

/-- Modelled from the spec claim C9 wording: word sync is present when
some line has more than one word and some word after the first starts
more than 0.05 s after the line's own startTime.  Stated for comparison
with the source's test, which inspects every word of the line, the first
included. -/
def specWordSyncAfterFirst (doc : LyricsDocument) : Prop :=
  ∃ l ∈ doc.lines, 1 < l.words.length ∧
    ∃ w ∈ l.words.tail, w.startTime.gtB (l.startTime.add (.num (1/20))) = true

/-- a document whose first word is late but whose later words are not:
the timing-mode test and the claim wording disagree here. -/
def ttmlC9Doc : LyricsDocument :=
  { format := .TTML,
    lines := [{ id := 0, startTime := .num 0,
                words := [{ id := 0, text := ['a'], startTime := .num 1 },
                          { id := 0, text := ['b'], startTime := .num 0 }],
                rawText := "a b".toList }],
    metadata := {} }

/-- the non-time fields of a word. -/
def wordFrame (w : TimedWord) : Nat × JStr × Option Bool := (w.id, w.text, w.isBackground)

/-- the non-time fields of a line, its words' non-time fields included. -/
def lineFrame (l : TimedLine) :
    Nat × JStr × Option JStr × Option Bool × Option (List (JStr × JStr)) ×
      List (Nat × JStr × Option Bool) :=
  (l.id, l.rawText, l.voice, l.isBackground, l.attributes, l.words.map wordFrame)

/-! ### Supporting lemmas -/

theorem splitOn_no_sep {sep : Char} {l : JStr} (h : sep ∉ l) : splitOn sep l = [l] := by
  induction l with
  | nil => rfl
  | cons c rest ih =>
    simp only [List.mem_cons, not_or] at h
    simp [splitOn, Ne.symm h.1, ih h.2]

theorem splitOn_append {sep : Char} {l1 l2 : JStr} (h : sep ∉ l1) :
    splitOn sep (l1 ++ sep :: l2) = l1 :: splitOn sep l2 := by
  induction l1 with
  | nil => simp [splitOn]
  | cons c rest ih =>
    simp only [List.mem_cons, not_or] at h
    simp only [List.cons_append, splitOn, List.append_eq]
    rw [if_neg (Ne.symm h.1), ih h.2]

theorem digit_not_ws {c : Char} (h : isDigitCh c = true) : isWS c = false := by
  by_contra hw
  rw [Bool.not_eq_false] at hw
  unfold isWS at hw
  simp only [Bool.or_eq_true, decide_eq_true_eq] at hw
  rcases hw with ((((h1 | h1) | h1) | h1) | h1) | h1 <;> subst h1 <;> simp [isDigitCh] at h

theorem plain_not_ws {c : Char} (h : plainTimeChar c = true) : isWS c = false := by
  unfold plainTimeChar at h
  simp only [Bool.or_eq_true, decide_eq_true_eq] at h
  rcases h with (h | h) | h
  · exact digit_not_ws h
  · subst h; rfl
  · subst h; rfl

theorem dropWhile_eq_self_of_all {p : Char → Bool} {l : JStr}
    (h : ∀ c ∈ l, p c = false) : l.dropWhile p = l := by
  cases l with
  | nil => rfl
  | cons c rest => simp [List.dropWhile, h c (by simp)]

theorem trimLeft_eq_self {l : JStr} (h : ∀ c ∈ l, isWS c = false) : trimLeft l = l :=
  dropWhile_eq_self_of_all h

theorem jsTrim_eq_self {l : JStr} (h : ∀ c ∈ l, isWS c = false) : jsTrim l = l := by
  unfold jsTrim trimRight
  rw [trimLeft_eq_self h, dropWhile_eq_self_of_all, List.reverse_reverse]
  intro c hc
  exact h c (List.mem_reverse.mp hc)

theorem natDigits_lt10 {n : Nat} (h : n < 10) : natDigits n = [Char.ofNat (48 + n)] := by
  unfold natDigits
  simp [h]

theorem natDigits_ge10 {n : Nat} (h : ¬n < 10) :
    natDigits n = natDigits (n / 10) ++ [Char.ofNat (48 + n % 10)] := by
  conv_lhs => unfold natDigits
  simp [h]

theorem digitCh_isDigit {d : Nat} (h : d < 10) : isDigitCh (Char.ofNat (48 + d)) = true := by
  interval_cases d <;> decide

theorem digitCh_val {d : Nat} (h : d < 10) : digitVal (Char.ofNat (48 + d)) = d := by
  interval_cases d <;> decide

theorem natDigits_ne_nil (n : Nat) : natDigits n ≠ [] := by
  by_cases h : n < 10
  · rw [natDigits_lt10 h]; simp
  · rw [natDigits_ge10 h]; simp

theorem natDigits_all_digits (n : Nat) : ∀ c ∈ natDigits n, isDigitCh c = true := by
  induction n using Nat.strong_induction_on with
  | _ n ih =>
    by_cases h : n < 10
    · rw [natDigits_lt10 h]
      intro c hc
      simp only [List.mem_singleton] at hc
      subst hc
      exact digitCh_isDigit h
    · rw [natDigits_ge10 h]
      intro c hc
      rcases List.mem_append.mp hc with hc | hc
      · exact ih (n / 10) (Nat.div_lt_self (by omega) (by omega)) c hc
      · simp only [List.mem_singleton] at hc
        subst hc
        exact digitCh_isDigit (Nat.mod_lt _ (by omega))

theorem foldl_natDigits (n : Nat) : ∀ a : Nat,
    (natDigits n).foldl (fun a c => 10 * a + digitVal c) a =
      a * 10 ^ (natDigits n).length + n := by
  induction n using Nat.strong_induction_on with
  | _ n ih =>
    intro a
    by_cases h : n < 10
    · rw [natDigits_lt10 h]
      simp [List.foldl, digitCh_val h]
      ring
    · rw [natDigits_ge10 h]
      rw [List.foldl_append, ih (n / 10) (Nat.div_lt_self (by omega) (by omega)) a]
      simp only [List.foldl, List.length_append, List.length_singleton]
      rw [digitCh_val (Nat.mod_lt _ (by omega))]
      rw [pow_succ, ← mul_assoc]
      omega

theorem digitsVal_natDigits (n : Nat) : digitsVal (natDigits n) = n := by
  have := foldl_natDigits n 0
  simpa [digitsVal] using this

theorem digitsVal_replicate_zero (z : Nat) (l : JStr) :
    digitsVal (List.replicate z '0' ++ l) = digitsVal l := by
  induction z with
  | zero => simp
  | succ z ih =>
    rw [List.replicate_succ]
    simpa [digitsVal, List.foldl] using ih

theorem digitsVal_padStart (k : Nat) (l : JStr) :
    digitsVal (padStart k '0' l) = digitsVal l :=
  digitsVal_replicate_zero _ l

theorem padStart_all_digits {k : Nat} {l : JStr} (h : ∀ c ∈ l, isDigitCh c = true) :
    ∀ c ∈ padStart k '0' l, isDigitCh c = true := by
  intro c hc
  rcases List.mem_append.mp hc with hc | hc
  · rw [List.eq_of_mem_replicate hc]; decide
  · exact h c hc

theorem natDigits_length_le : ∀ k n : Nat, n < 10 ^ k → 1 ≤ k → (natDigits n).length ≤ k := by
  intro k
  induction k with
  | zero => omega
  | succ k ih =>
    intro n hn _
    by_cases h : n < 10
    · rw [natDigits_lt10 h]; simp
    · rw [natDigits_ge10 h]
      simp only [List.length_append, List.length_singleton]
      have hk : 1 ≤ k := by
        by_contra hk
        have : k = 0 := by omega
        subst this
        simp at hn
        omega
      have : n / 10 < 10 ^ k := by
        rw [Nat.div_lt_iff_lt_mul (by omega)]
        calc n < 10 ^ (k + 1) := hn
        _ = 10 ^ k * 10 := by rw [pow_succ]
      have := ih (n / 10) this hk
      omega

theorem padStart_length_of_le {k : Nat} {c : Char} {l : JStr} (h : l.length ≤ k) :
    (padStart k c l).length = k := by
  simp [padStart]
  omega

theorem takeWhile_append_all {p : Char → Bool} {l1 l2 : JStr}
    (h : ∀ c ∈ l1, p c = true) : (l1 ++ l2).takeWhile p = l1 ++ l2.takeWhile p := by
  induction l1 with
  | nil => simp
  | cons c rest ih =>
    simp only [List.cons_append, List.takeWhile_cons, h c (by simp), if_true]
    rw [ih fun c hc => h c (by simp [hc])]

theorem dropWhile_append_all {p : Char → Bool} {l1 l2 : JStr}
    (h : ∀ c ∈ l1, p c = true) : (l1 ++ l2).dropWhile p = l2.dropWhile p := by
  induction l1 with
  | nil => simp
  | cons c rest ih =>
    simp only [List.cons_append, List.dropWhile_cons, h c (by simp), if_true]
    exact ih fun c hc => h c (by simp [hc])

theorem takeDigits_exact {ds rest : JStr} (hds : ∀ c ∈ ds, isDigitCh c = true)
    (hrest : ∀ c ∈ rest.head?, isDigitCh c = false) :
    takeDigits (ds ++ rest) = (ds, rest) := by
  have ht : rest.takeWhile isDigitCh = [] := by
    cases rest with
    | nil => rfl
    | cons c r => simp [List.takeWhile_cons, hrest c (by simp)]
  have hd : rest.dropWhile isDigitCh = rest := by
    cases rest with
    | nil => rfl
    | cons c r => simp [List.dropWhile_cons, hrest c (by simp)]
  unfold takeDigits
  rw [takeWhile_append_all hds, dropWhile_append_all hds, ht, hd, List.append_nil]

theorem ratTrunc_of_nonneg {q : ℚ} (h : 0 ≤ q) : JSNum.ratTrunc q = ⌊q⌋ :=
  if_neg (not_lt.mpr h)

theorem jsParseInt_digits {l : JStr} (hne : l ≠ []) (hd : ∀ c ∈ l, isDigitCh c = true) :
    jsParseInt l = .num (digitsVal l) := by
  obtain ⟨c, r, rfl⟩ := List.exists_cons_of_ne_nil hne
  have hc := hd c (by simp)
  have htake : takeDigits (c :: r) = (c :: r, []) := by
    have := @takeDigits_exact (c :: r) [] hd (by simp)
    simpa using this
  unfold jsParseInt
  rw [trimLeft_eq_self fun c hc2 => digit_not_ws (hd c hc2)]
  dsimp only
  split
  · rename_i r2 heq
    rw [List.cons.injEq] at heq
    rw [heq.1] at hc
    simp [isDigitCh] at hc
  · rename_i r2 heq
    rw [List.cons.injEq] at heq
    rw [heq.1] at hc
    simp [isDigitCh] at hc
  · unfold jsParseIntMag
    rw [htake]
    simp

theorem jsParseFloat_digits_dot {ss fs : JStr} (hss : ss ≠ []) (hfs : fs ≠ [])
    (h1 : ∀ c ∈ ss, isDigitCh c = true) (h2 : ∀ c ∈ fs, isDigitCh c = true) :
    jsParseFloat (ss ++ '.' :: fs) =
      .num ((digitsVal ss : ℚ) + (digitsVal fs : ℚ) / 10 ^ fs.length) := by
  obtain ⟨c, r, rfl⟩ := List.exists_cons_of_ne_nil hss
  have hc := h1 c (by simp)
  have hall : ∀ d ∈ (c :: r) ++ '.' :: fs, isWS d = false := by
    intro d hdm
    rcases List.mem_append.mp hdm with hdm | hdm
    · exact digit_not_ws (h1 d hdm)
    · rcases List.mem_cons.mp hdm with hdm | hdm
      · subst hdm; rfl
      · exact digit_not_ws (h2 d hdm)
  unfold jsParseFloat
  rw [List.cons_append, trimLeft_eq_self (by simpa using hall)]
  dsimp only
  split
  · rename_i r2 heq
    rw [List.cons.injEq] at heq
    rw [heq.1] at hc
    simp [isDigitCh] at hc
  · rename_i r2 heq
    rw [List.cons.injEq] at heq
    rw [heq.1] at hc
    simp [isDigitCh] at hc
  · unfold parseFloatMag
    have hcI : c ≠ 'I' := by
      rintro rfl
      simp [isDigitCh] at hc
    rw [if_neg ?hpre]
    case hpre =>
      show ¬('I' :: "nfinity".toList).isPrefixOf (c :: (r ++ '.' :: fs)) = true
      simp only [List.isPrefixOf, Bool.and_eq_true, beq_iff_eq]
      rintro ⟨rfl, -⟩
      exact hcI rfl
    have htake1 : takeDigits ((c :: r) ++ '.' :: fs) = (c :: r, '.' :: fs) :=
      takeDigits_exact h1 (by intro d hd; simp at hd; subst hd; decide)
    have htake2 : takeDigits fs = (fs, []) := by
      have := @takeDigits_exact fs [] h2 (by simp)
      simpa using this
    rw [List.cons_append] at htake1
    simp only [htake1, htake2]
    rw [if_neg (by simp)]
    cases hfse : fs with
    | nil => exact absurd hfse hfs
    | cons f fr =>
      have hf : isDigitCh f = true := h2 f (by rw [hfse]; simp)
      have hfe : f ≠ 'e' := by rintro rfl; simp [isDigitCh] at hf
      have hfE : f ≠ 'E' := by rintro rfl; simp [isDigitCh] at hf
      rw [← hfse]
      simp

theorem plain_not_bracket {c : Char} (h : plainTimeChar c = true) :
    (!(c = '[' || c = ']' || c = '<' || c = '>')) = true := by
  have h4 : c ≠ '[' ∧ c ≠ ']' ∧ c ≠ '<' ∧ c ≠ '>' := by
    unfold plainTimeChar at h
    simp only [Bool.or_eq_true, decide_eq_true_eq] at h
    rcases h with (h | h) | h
    · refine ⟨?_, ?_, ?_, ?_⟩ <;> rintro rfl <;> simp [isDigitCh] at h
    · subst h; refine ⟨by decide, by decide, by decide, by decide⟩
    · subst h; refine ⟨by decide, by decide, by decide, by decide⟩
  simp [h4.1, h4.2.1, h4.2.2.1, h4.2.2.2]

theorem cleanTimeStr_eq_self {l : JStr} (h : ∀ c ∈ l, plainTimeChar c = true) :
    cleanTimeStr l = l := by
  unfold cleanTimeStr
  rw [jsTrim_eq_self fun c hc => plain_not_ws (h c hc)]
  exact List.filter_eq_self.mpr fun c hc => plain_not_bracket (h c hc)

theorem digits_plain {l : JStr} (h : ∀ c ∈ l, isDigitCh c = true) :
    ∀ c ∈ l, plainTimeChar c = true := by
  intro c hc
  simp [plainTimeChar, h c hc]

theorem colon_not_mem_digits {l : JStr} (h : ∀ c ∈ l, isDigitCh c = true) : ':' ∉ l :=
  fun hmem => absurd (h ':' hmem) (by decide)

theorem parseTimestamp_two_parts {mm ss fs : JStr} (hmm : mm ≠ []) (hss : ss ≠ [])
    (hfs : fs ≠ []) (h0 : ∀ c ∈ mm, isDigitCh c = true)
    (h1 : ∀ c ∈ ss, isDigitCh c = true) (h2 : ∀ c ∈ fs, isDigitCh c = true) :
    parseTimestamp (mm ++ ':' :: (ss ++ '.' :: fs)) =
      .num ((digitsVal mm : ℚ) * 60 +
        ((digitsVal ss : ℚ) + (digitsVal fs : ℚ) / 10 ^ fs.length)) := by
  have hne : mm ++ ':' :: (ss ++ '.' :: fs) ≠ [] := by cases mm <;> simp
  have hplain : ∀ c ∈ mm ++ ':' :: (ss ++ '.' :: fs), plainTimeChar c = true := by
    intro c hc
    rcases List.mem_append.mp hc with hc | hc
    · exact digits_plain h0 c hc
    · rcases List.mem_cons.mp hc with rfl | hc
      · decide
      · rcases List.mem_append.mp hc with hc | hc
        · exact digits_plain h1 c hc
        · rcases List.mem_cons.mp hc with rfl | hc
          · decide
          · exact digits_plain h2 c hc
  have hc2 : ':' ∉ ss ++ '.' :: fs := by
    intro hmem
    rcases List.mem_append.mp hmem with hm | hm
    · exact colon_not_mem_digits h1 hm
    · rcases List.mem_cons.mp hm with hm | hm
      · exact absurd hm (by decide)
      · exact colon_not_mem_digits h2 hm
  unfold parseTimestamp
  rw [if_neg hne]
  dsimp only
  rw [cleanTimeStr_eq_self hplain, splitOn_append (colon_not_mem_digits h0),
    splitOn_no_sep hc2]
  dsimp only
  rw [jsParseInt_digits hmm h0, jsParseFloat_digits_dot hss hfs h1 h2]
  simp [JSNum.mul, JSNum.add]

theorem parseTimestamp_three_parts {hh mm ss fs : JStr} (hhh : hh ≠ []) (hmm : mm ≠ [])
    (hss : ss ≠ []) (hfs : fs ≠ []) (hH : ∀ c ∈ hh, isDigitCh c = true)
    (h0 : ∀ c ∈ mm, isDigitCh c = true) (h1 : ∀ c ∈ ss, isDigitCh c = true)
    (h2 : ∀ c ∈ fs, isDigitCh c = true) :
    parseTimestamp (hh ++ ':' :: (mm ++ ':' :: (ss ++ '.' :: fs))) =
      .num ((digitsVal hh : ℚ) * 3600 + ((digitsVal mm : ℚ) * 60 +
        ((digitsVal ss : ℚ) + (digitsVal fs : ℚ) / 10 ^ fs.length))) := by
  have hne : hh ++ ':' :: (mm ++ ':' :: (ss ++ '.' :: fs)) ≠ [] := by cases hh <;> simp
  have hplain : ∀ c ∈ hh ++ ':' :: (mm ++ ':' :: (ss ++ '.' :: fs)),
      plainTimeChar c = true := by
    intro c hc
    rcases List.mem_append.mp hc with hc | hc
    · exact digits_plain hH c hc
    · rcases List.mem_cons.mp hc with rfl | hc
      · decide
      · rcases List.mem_append.mp hc with hc | hc
        · exact digits_plain h0 c hc
        · rcases List.mem_cons.mp hc with rfl | hc
          · decide
          · rcases List.mem_append.mp hc with hc | hc
            · exact digits_plain h1 c hc
            · rcases List.mem_cons.mp hc with rfl | hc
              · decide
              · exact digits_plain h2 c hc
  have hcolon2 : ':' ∉ ss ++ '.' :: fs := by
    intro hmem
    rcases List.mem_append.mp hmem with hm | hm
    · exact colon_not_mem_digits h1 hm
    · rcases List.mem_cons.mp hm with hm | hm
      · exact absurd hm (by decide)
      · exact colon_not_mem_digits h2 hm
  unfold parseTimestamp
  rw [if_neg hne]
  dsimp only
  rw [cleanTimeStr_eq_self hplain, splitOn_append (colon_not_mem_digits hH),
    splitOn_append (colon_not_mem_digits h0), splitOn_no_sep hcolon2]
  dsimp only
  rw [jsParseInt_digits hhh hH, jsParseInt_digits hmm h0,
    jsParseFloat_digits_dot hss hfs h1 h2]
  simp [JSNum.mul, JSNum.add]

theorem qfloor_div_nat {s : ℚ} (hs : 0 ≤ s) (c : ℕ) :
    ⌊s / (c : ℚ)⌋ = ((⌊s⌋₊ / c : ℕ) : ℤ) := by
  rw [← Nat.floor_div_nat s c, Int.natCast_floor_eq_floor (div_nonneg hs (Nat.cast_nonneg c))]

theorem qfloor_sub_nat {s : ℚ} (hs : 0 ≤ s) (k : ℕ) (hk : k ≤ ⌊s⌋₊) :
    ⌊s - (k : ℚ)⌋₊ = ⌊s⌋₊ - k := by
  have h1 : ⌊s - ((k : ℤ) : ℚ)⌋ = ⌊s⌋ - (k : ℤ) := Int.floor_sub_int s k
  have h2 : (⌊s⌋₊ : ℤ) = ⌊s⌋ := Int.natCast_floor_eq_floor hs
  have h3 : ⌊s - (k : ℚ)⌋₊ = (⌊s - (k : ℚ)⌋).toNat := (Int.floor_toNat _).symm
  rw [h3]
  push_cast at h1
  rw [h1, ← h2]
  omega

theorem toIntStr_natCast (m : ℕ) : JSNum.toIntStr (.num (m : ℚ)) = natDigits m := by
  simp only [JSNum.toIntStr]
  rw [if_neg (not_lt.mpr (by positivity)), Int.floor_natCast, Int.toNat_natCast]

theorem formatTimestamp_nonneg_eval (s : ℚ) (hs : 0 ≤ s) (p : Nat) :
    formatTimestamp (.num s) p =
      (if 0 < ⌊s⌋₊ / 3600 then natDigits (⌊s⌋₊ / 3600) ++ [':'] else []) ++
      (padStart 2 '0' (natDigits (⌊s⌋₊ % 3600 / 60)) ++ ':' ::
        (padStart 2 '0' (natDigits (⌊s⌋₊ % 60)) ++ '.' ::
          (if p = 3 then padStart 3 '0' (natDigits ⌊(s - (⌊s⌋₊ : ℚ)) * 1000⌋₊)
           else padStart 2 '0' (natDigits ⌊(s - (⌊s⌋₊ : ℚ)) * 100⌋₊)))) := by
  have hNle : (⌊s⌋₊ : ℚ) ≤ s := Nat.floor_le hs
  have hfrac0 : 0 ≤ s - (⌊s⌋₊ : ℚ) := by linarith
  have hdivkey : ∀ c : ℕ, 0 < c →
      JSNum.ratTrunc (s / ((c : ℕ) : ℚ)) = ((⌊s⌋₊ / c : ℕ) : ℤ) := by
    intro c hc
    rw [ratTrunc_of_nonneg (div_nonneg hs (Nat.cast_nonneg c)), qfloor_div_nat hs]
  have hmulle : ∀ c : ℕ, c * (⌊s⌋₊ / c) ≤ ⌊s⌋₊ := by
    intro c
    rw [Nat.mul_comm]
    exact Nat.div_mul_le_self _ _
  have hdiv : JSNum.floor ((JSNum.num s).divC 3600) =
      .num ((⌊s⌋₊ / 3600 : ℕ) : ℚ) := by
    simp only [JSNum.divC, JSNum.floor, JSNum.num.injEq]
    rw [show (3600 : ℚ) = ((3600 : ℕ) : ℚ) by norm_num, qfloor_div_nat hs]
    norm_cast
  have hmod : ∀ c : ℕ, 0 < c → (JSNum.num s).modC ((c : ℕ) : ℚ) =
      .num (s - ((c * (⌊s⌋₊ / c) : ℕ) : ℚ)) := by
    intro c hc
    simp only [JSNum.modC, JSNum.num.injEq]
    rw [hdivkey c hc]
    norm_cast
  have hminutes : JSNum.floor (((JSNum.num s).modC 3600).divC 60) =
      .num ((⌊s⌋₊ % 3600 / 60 : ℕ) : ℚ) := by
    rw [show (3600 : ℚ) = ((3600 : ℕ) : ℚ) by norm_num, hmod 3600 (by norm_num)]
    simp only [JSNum.divC, JSNum.floor, JSNum.num.injEq]
    have hs1 : 0 ≤ s - ((3600 * (⌊s⌋₊ / 3600) : ℕ) : ℚ) := by
      have := hmulle 3600
      have hle2 : ((3600 * (⌊s⌋₊ / 3600) : ℕ) : ℚ) ≤ (⌊s⌋₊ : ℚ) := by exact_mod_cast this
      linarith
    rw [show (60 : ℚ) = ((60 : ℕ) : ℚ) by norm_num, qfloor_div_nat hs1]
    rw [qfloor_sub_nat hs (3600 * (⌊s⌋₊ / 3600)) (hmulle 3600)]
    congr 2
    omega
  have hsecs : JSNum.floor ((JSNum.num s).modC 60) = .num ((⌊s⌋₊ % 60 : ℕ) : ℚ) := by
    rw [show (60 : ℚ) = ((60 : ℕ) : ℚ) by norm_num, hmod 60 (by norm_num)]
    simp only [JSNum.floor, JSNum.num.injEq]
    rw [← Int.natCast_floor_eq_floor (a := s - ((60 * (⌊s⌋₊ / 60) : ℕ) : ℚ)) ?h1]
    case h1 =>
      have := hmulle 60
      have hle2 : ((60 * (⌊s⌋₊ / 60) : ℕ) : ℚ) ≤ (⌊s⌋₊ : ℚ) := by exact_mod_cast this
      linarith
    rw [qfloor_sub_nat hs (60 * (⌊s⌋₊ / 60)) (hmulle 60)]
    congr 1
    omega
  have hms : (JSNum.num s).modC 1 = .num (s - (⌊s⌋₊ : ℚ)) := by
    rw [show (1 : ℚ) = ((1 : ℕ) : ℚ) by norm_num, hmod 1 (by norm_num)]
    simp
  have hmsk : ∀ k : ℚ, JSNum.floor (((JSNum.num s).modC 1).mul (.num k)) =
      .num (⌊(s - (⌊s⌋₊ : ℚ)) * k⌋ : ℤ) := by
    intro k
    rw [hms]
    simp [JSNum.mul, JSNum.floor]
  have hmsfloor : ∀ k : ℚ, 0 ≤ k →
      ((⌊(s - (⌊s⌋₊ : ℚ)) * k⌋ : ℤ) : ℚ) = ((⌊(s - (⌊s⌋₊ : ℚ)) * k⌋₊ : ℕ) : ℚ) := by
    intro k hk
    rw [← Int.natCast_floor_eq_floor (mul_nonneg hfrac0 hk)]
    push_cast
    ring
  unfold formatTimestamp
  rw [if_neg (by simp [JSNum.isNaN, JSNum.ltz, not_lt.mpr hs])]
  dsimp only
  rw [hdiv, hminutes, hsecs, hmsk 1000, hmsk 100, hmsfloor 1000 (by norm_num),
    hmsfloor 100 (by norm_num), toIntStr_natCast, toIntStr_natCast, toIntStr_natCast,
    toIntStr_natCast, toIntStr_natCast]
  have hgtz : ∀ m : ℕ, (JSNum.num ((m : ℕ) : ℚ)).gtz = decide (0 < m) := by
    intro m
    simp [JSNum.gtz]
  rw [hgtz]
  by_cases hh : 0 < ⌊s⌋₊ / 3600
  · rw [if_pos (by simpa using hh), if_pos hh]
    rcases Nat.eq_zero_or_pos p with rfl | hp0
    · simp [List.append_assoc]
    · by_cases hp : p = 3 <;> simp [hp, List.append_assoc]
  · rw [if_neg (by simpa using hh), if_neg hh]
    by_cases hp : p = 3 <;> simp [hp, List.append_assoc]

theorem padStart_ne_nil {k : Nat} {c : Char} {l : JStr} (h : l ≠ []) :
    padStart k c l ≠ [] := by
  unfold padStart
  intro he
  exact h (List.append_eq_nil.mp he).2

theorem parse_formatted_core (N cs d : Nat) (hd : 1 ≤ d) (hcs : cs < 10 ^ d) :
    parseTimestamp (
      (if 0 < N / 3600 then natDigits (N / 3600) ++ [':'] else []) ++
      (padStart 2 '0' (natDigits (N % 3600 / 60)) ++ ':' ::
        (padStart 2 '0' (natDigits (N % 60)) ++ '.' :: padStart d '0' (natDigits cs)))) =
      .num ((N : ℚ) + (cs : ℚ) / 10 ^ d) := by
  have hlen : (padStart d '0' (natDigits cs)).length = d :=
    padStart_length_of_le (natDigits_length_le d cs hcs hd)
  by_cases hh : 0 < N / 3600
  · rw [if_pos hh, List.append_assoc, List.singleton_append]
    rw [parseTimestamp_three_parts (natDigits_ne_nil _)
      (padStart_ne_nil (natDigits_ne_nil _)) (padStart_ne_nil (natDigits_ne_nil _))
      (padStart_ne_nil (natDigits_ne_nil _)) (natDigits_all_digits _)
      (padStart_all_digits (natDigits_all_digits _))
      (padStart_all_digits (natDigits_all_digits _))
      (padStart_all_digits (natDigits_all_digits _))]
    rw [hlen]
    simp only [digitsVal_padStart, digitsVal_natDigits]
    have hNsplit : N / 3600 * 3600 + (N % 3600 / 60 * 60 + N % 60) = N := by omega
    have hcast : ((N / 3600 : ℕ) : ℚ) * 3600 + (((N % 3600 / 60 : ℕ)) : ℚ) * 60 +
        ((N % 60 : ℕ) : ℚ) = (N : ℚ) := by
      have := congrArg (fun x : ℕ => (x : ℚ)) hNsplit
      push_cast at this
      linarith
    congr 1
    linear_combination hcast
  · rw [if_neg hh, List.nil_append]
    have hN : N < 3600 := by
      by_contra hc
      exact hh (Nat.div_pos (by omega) (by omega))
    rw [parseTimestamp_two_parts (padStart_ne_nil (natDigits_ne_nil _))
      (padStart_ne_nil (natDigits_ne_nil _)) (padStart_ne_nil (natDigits_ne_nil _))
      (padStart_all_digits (natDigits_all_digits _))
      (padStart_all_digits (natDigits_all_digits _))
      (padStart_all_digits (natDigits_all_digits _))]
    rw [hlen]
    simp only [digitsVal_padStart, digitsVal_natDigits]
    have hNsplit : N % 3600 / 60 * 60 + N % 60 = N := by omega
    have hcast : (((N % 3600 / 60 : ℕ)) : ℚ) * 60 + ((N % 60 : ℕ) : ℚ) = (N : ℚ) := by
      have := congrArg (fun x : ℕ => (x : ℚ)) hNsplit
      push_cast at this
      linarith
    congr 1
    linear_combination hcast

/-! ### Claim theorems for the timestamp codec -/

/-- C1: for every finite seconds value s ≥ 0 and every precision p in
{2,3}, parseTimestamp (formatTimestamp s p) recovers s to within the
stated precision: 0.01 seconds for p = 2 and 0.001 seconds for p = 3. -/
theorem parse_format_roundtrip (s : ℚ) (p : Nat) (hs : 0 ≤ s) (hp : p = 2 ∨ p = 3) :
    ∃ r : ℚ, parseTimestamp (formatTimestamp (.num s) p) = .num r ∧
      |r - s| ≤ (if p = 3 then (1/1000 : ℚ) else 1/100) := by
  have hNle : (⌊s⌋₊ : ℚ) ≤ s := Nat.floor_le hs
  have hfrac0 : 0 ≤ s - (⌊s⌋₊ : ℚ) := by linarith
  have hfrac1 : s - (⌊s⌋₊ : ℚ) < 1 := by
    have := Nat.lt_floor_add_one s
    linarith
  rw [formatTimestamp_nonneg_eval s hs p]
  have hif2 : ∀ {α : Type} (A B : α), (if (2 : ℕ) = 3 then A else B) = B :=
    fun A B => if_neg (by decide)
  have hif3 : ∀ {α : Type} (A B : α), (if (3 : ℕ) = 3 then A else B) = A :=
    fun A B => if_pos rfl
  rcases hp with rfl | rfl
  · rw [hif2]
    have hx0 : (0 : ℚ) ≤ (s - (⌊s⌋₊ : ℚ)) * 100 := mul_nonneg hfrac0 (by norm_num)
    have hcs : ⌊(s - (⌊s⌋₊ : ℚ)) * 100⌋₊ < 10 ^ 2 := by
      rw [Nat.floor_lt hx0]
      push_cast
      nlinarith
    rw [parse_formatted_core ⌊s⌋₊ _ 2 (by norm_num) hcs]
    refine ⟨_, rfl, ?_⟩
    rw [hif2]
    have h1 : (⌊(s - (⌊s⌋₊ : ℚ)) * 100⌋₊ : ℚ) ≤ (s - (⌊s⌋₊ : ℚ)) * 100 :=
      Nat.floor_le hx0
    have h2 : (s - (⌊s⌋₊ : ℚ)) * 100 < ⌊(s - (⌊s⌋₊ : ℚ)) * 100⌋₊ + 1 :=
      Nat.lt_floor_add_one _
    rw [abs_le]
    norm_num
    constructor <;> linarith
  · rw [hif3]
    have hx0 : (0 : ℚ) ≤ (s - (⌊s⌋₊ : ℚ)) * 1000 := mul_nonneg hfrac0 (by norm_num)
    have hcs : ⌊(s - (⌊s⌋₊ : ℚ)) * 1000⌋₊ < 10 ^ 3 := by
      rw [Nat.floor_lt hx0]
      push_cast
      nlinarith
    rw [parse_formatted_core ⌊s⌋₊ _ 3 (by norm_num) hcs]
    refine ⟨_, rfl, ?_⟩
    rw [hif3]
    have h1 : (⌊(s - (⌊s⌋₊ : ℚ)) * 1000⌋₊ : ℚ) ≤ (s - (⌊s⌋₊ : ℚ)) * 1000 :=
      Nat.floor_le hx0
    have h2 : (s - (⌊s⌋₊ : ℚ)) * 1000 < ⌊(s - (⌊s⌋₊ : ℚ)) * 1000⌋₊ + 1 :=
      Nat.lt_floor_add_one _
    rw [abs_le]
    norm_num
    constructor <;> linarith

/-- witness for C1 at s = 99.5 seconds, p = 2. -/
theorem parse_format_roundtrip_witness :
    (0 : ℚ) ≤ 199/2 ∧
    ∃ r : ℚ, parseTimestamp (formatTimestamp (.num (199/2)) 2) = .num r ∧
      |r - 199/2| ≤ (1/100 : ℚ) := by
  refine ⟨by norm_num, ?_⟩
  have h := parse_format_roundtrip (199/2) 2 (by norm_num) (Or.inl rfl)
  simpa using h

/-- C3 counterexample: "a:b" matches none of the accepted timestamp
forms, yet parseTimestamp returns NaN rather than 0. -/
theorem parseTimestamp_colon_garbage_nan :
    parseTimestamp ("a:b".toList) = JSNum.nan ∧ JSNum.nan ≠ JSNum.num 0 := by
  exact ⟨by decide, by decide⟩

/-- C3 (amended): parseTimestamp is a total function; every input whose
bracket-stripped trimmed form contains no colon and has no parseable
numeric prefix yields 0.  (Inputs containing colons with non-numeric
components yield NaN instead, and inputs with a numeric prefix followed
by garbage yield the prefix value.) -/
theorem parseTimestamp_unparseable_zero (s : JStr)
    (h1 : ':' ∉ cleanTimeStr s) (h2 : (jsParseFloat (cleanTimeStr s)).isNaN = true) :
    parseTimestamp s = .num 0 := by
  unfold parseTimestamp
  by_cases hs : s = []
  · rw [if_pos hs]
  · rw [if_neg hs]
    dsimp only
    rw [splitOn_no_sep h1]
    simp [h2]

/-- witness for C3 (amended) at the input "hello". -/
theorem parseTimestamp_unparseable_zero_witness :
    (':' ∉ cleanTimeStr ("hello".toList)) ∧
    ((jsParseFloat (cleanTimeStr ("hello".toList))).isNaN = true) ∧
    parseTimestamp ("hello".toList) = .num 0 :=
  ⟨by decide, by decide, parseTimestamp_unparseable_zero _ (by decide) (by decide)⟩

/-- C8 counterexample: formatTimestamp(+Infinity, 2) does not raise, but
prints "Infinity:NaN:NaN.NaN" rather than the zero-valued string. -/
theorem formatTimestamp_posinf_not_zero_string :
    formatTimestamp (JSNum.inf true) 2 = "Infinity:NaN:NaN.NaN".toList ∧
    formatTimestamp (JSNum.inf true) 2 ≠ "00:00.00".toList := by
  exact ⟨by decide, by decide⟩

/-- C8 (amended): for every precision p in {2,3}, a NaN or negative
seconds value (-Infinity included, being negative) formats to the
zero-valued string for that precision; +Infinity, however, is not caught
by the guard and prints "Infinity:NaN:NaN.NaN" (still without error). -/
theorem formatTimestamp_zero_string_of_nan_or_neg (s : JSNum) (p : Nat)
    ( _hp : p = 2 ∨ p = 3) (h : s.isNaN = true ∨ s.ltz = true) :
    formatTimestamp s p = (if p = 3 then "00:00.000" else "00:00.00").toList := by
  unfold formatTimestamp
  rcases h with h | h <;> rw [if_pos (by simp [h])]

/-- witness for C8 (amended) at s = -1, p = 2. -/
theorem formatTimestamp_zero_string_of_nan_or_neg_witness :
    ((JSNum.num (-1)).ltz = true) ∧ formatTimestamp (JSNum.num (-1)) 2 = "00:00.00".toList := by
  refine ⟨by decide, ?_⟩
  have h := formatTimestamp_zero_string_of_nan_or_neg (JSNum.num (-1)) 2
    (Or.inl rfl) (Or.inr (by decide))
  simpa using h

/-! ### Shift utility claims -/

/-- C10: shiftTimestamps changes only times: the format, the metadata,
the number and order of lines, and every line's and word's id, text,
rawText, voice, isBackground flag and attribute bag are identical to the
input's. -/
theorem shift_frame_condition (doc : LyricsDocument) (offsetSeconds : JSNum) :
    (shiftTimestamps doc offsetSeconds).format = doc.format ∧
    (shiftTimestamps doc offsetSeconds).metadata = doc.metadata ∧
    (shiftTimestamps doc offsetSeconds).lines.length = doc.lines.length ∧
    (shiftTimestamps doc offsetSeconds).lines.map lineFrame = doc.lines.map lineFrame := by
  refine ⟨rfl, rfl, by simp [shiftTimestamps], ?_⟩
  simp [shiftTimestamps, lineFrame, wordFrame, List.map_map, Function.comp_def]

/-- C6 counterexample: a line whose endTime is the (falsy) number 0 loses
its endTime entirely under shiftTimestamps(doc, 0), so the shift by 0 is
not the identity on all times. -/
theorem shift_zero_drops_zero_end :
    (shiftTimestamps
      { format := .LRC,
        lines := [{ id := 0, startTime := .num 1, endTime := some (.num 0),
                    words := [], rawText := [] }],
        metadata := {} } (.num 0)).lines.map (fun l => l.endTime) = [none] ∧
    ([some (JSNum.num 0)] : List (Option JSNum)) ≠ [none] :=
  ⟨rfl, by decide⟩

/-- C6 (amended): shiftTimestamps(doc, 0) is the identity provided every
start time is a finite nonnegative number and every present end time is a
finite positive number.  (A zero or NaN end time is falsy and is dropped
by the shift; a negative or -Infinity time would be clamped to 0; a NaN
start time is preserved since max(0, NaN) is NaN.) -/
theorem shift_zero_identity (doc : LyricsDocument)
    (hline : ∀ l ∈ doc.lines,
      (∃ q : ℚ, 0 ≤ q ∧ l.startTime = .num q) ∧
      (∀ e ∈ l.endTime, ∃ q : ℚ, 0 < q ∧ e = .num q) ∧
      ∀ w ∈ l.words,
        (∃ q : ℚ, 0 ≤ q ∧ w.startTime = .num q) ∧
        ∀ e ∈ w.endTime, ∃ q : ℚ, 0 < q ∧ e = .num q) :
    shiftTimestamps doc (.num 0) = doc := by
  have hstart : ∀ (x : JSNum) (q : ℚ), 0 ≤ q → x = .num q →
      ((x.add (.num 0)).max0 : JSNum) = x := by
    rintro x q hq rfl
    simp [JSNum.add, JSNum.max0, max_eq_right hq]
  have hend : ∀ (e : Option JSNum),
      (∀ x ∈ e, ∃ q : ℚ, 0 < q ∧ x = .num q) → shiftEnd (.num 0) e = e := by
    intro e he
    match e with
    | none => rfl
    | some x =>
      obtain ⟨q, hq, rfl⟩ := he x rfl
      simp [shiftEnd, JSNum.truthy, JSNum.add, JSNum.max0, ne_of_gt hq,
        max_eq_right (le_of_lt hq)]
  unfold shiftTimestamps
  cases doc with
  | mk fmt ls md =>
    simp only [LyricsDocument.mk.injEq, true_and]
    constructor
    · rw [show (List.map _ ls) = ls.map id from ?_, List.map_id]
      apply List.map_congr_left
      intro l hl
      obtain ⟨⟨q, hq, hsq⟩, hle, hw⟩ := hline l hl
      have h1 := hstart l.startTime q hq hsq
      have h2 := hend l.endTime hle
      have h3 : l.words.map (fun w =>
          { w with startTime := (w.startTime.add (.num 0)).max0,
                   endTime := shiftEnd (.num 0) w.endTime }) = l.words := by
        rw [show (List.map _ l.words) = l.words.map id from ?_, List.map_id]
        apply List.map_congr_left
        intro w hwm
        obtain ⟨⟨qw, hqw, hsw⟩, hwe⟩ := hw w hwm
        have h4 := hstart w.startTime qw hqw hsw
        have h5 := hend w.endTime hwe
        cases w
        simp_all
      cases l
      simp_all
    · trivial

/-- witness for C6 (amended): a one-line document with positive times is
fixed by a zero shift. -/
theorem shift_zero_identity_witness :
    shiftTimestamps
      { format := .LRC,
        lines := [{ id := 0, startTime := .num 1, endTime := some (.num 2),
                    words := [{ id := 0, text := ['a'], startTime := .num 1,
                                endTime := some (.num 2) }],
                    rawText := ['a'] }],
        metadata := {} } (.num 0) =
      { format := .LRC,
        lines := [{ id := 0, startTime := .num 1, endTime := some (.num 2),
                    words := [{ id := 0, text := ['a'], startTime := .num 1,
                                endTime := some (.num 2) }],
                    rawText := ['a'] }],
        metadata := {} } := by
  apply shift_zero_identity
  intro l hl
  simp only [List.mem_singleton] at hl
  subst hl
  refine ⟨⟨1, by norm_num, rfl⟩, ?_, ?_⟩
  · intro e he
    simp only [Option.mem_def, Option.some.injEq] at he
    subst he
    exact ⟨2, by norm_num, rfl⟩
  · intro w hw
    simp only [List.mem_singleton] at hw
    subst hw
    refine ⟨⟨1, by norm_num, rfl⟩, ?_⟩
    intro e he
    simp only [Option.mem_def, Option.some.injEq] at he
    subst he
    exact ⟨2, by norm_num, rfl⟩

/-! ### End-time inference claims -/

theorem fixWordEnds_spec (e : JSNum) (ws : List TimedWord) :
    (fixWordEnds e ws).map (fun w => w.startTime) = ws.map (fun w => w.startTime) ∧
    List.Chain' (fun u v => u.endTime = some v.startTime) (fixWordEnds e ws) ∧
    ∀ w ∈ (fixWordEnds e ws).getLast?, w.endTime = some e := by
  induction ws with
  | nil => exact ⟨rfl, by simp [fixWordEnds], by simp [fixWordEnds]⟩
  | cons w ws ih =>
    cases ws with
    | nil =>
      refine ⟨rfl, by simp [fixWordEnds], ?_⟩
      intro x hx
      simp [fixWordEnds] at hx
      subst hx
      rfl
    | cons w2 rest =>
      obtain ⟨ih1, ih2, ih3⟩ := ih
      have hstep : fixWordEnds e (w :: w2 :: rest) =
          { w with endTime := some w2.startTime } :: fixWordEnds e (w2 :: rest) := rfl
      refine ⟨?_, ?_, ?_⟩
      · rw [hstep]
        simp only [List.map_cons] at ih1 ⊢
        rw [ih1]
      · rw [hstep, List.chain'_cons']
        refine ⟨?_, ih2⟩
        intro y hy
        cases rest with
        | nil =>
          rw [show fixWordEnds e [w2] = [{ w2 with endTime := some e }] from rfl] at hy
          simp only [List.head?_cons, Option.mem_def, Option.some.injEq] at hy
          subst hy
          rfl
        | cons w3 r3 =>
          rw [show fixWordEnds e (w2 :: w3 :: r3) =
              { w2 with endTime := some w3.startTime } :: fixWordEnds e (w3 :: r3)
              from rfl] at hy
          simp only [List.head?_cons, Option.mem_def, Option.some.injEq] at hy
          subst hy
          rfl
      · intro x hx
        rw [hstep] at hx
        have hne : fixWordEnds e (w2 :: rest) ≠ [] := by
          cases rest with
          | nil => simp [fixWordEnds]
          | cons w3 r3 =>
            rw [show fixWordEnds e (w2 :: w3 :: r3) =
                { w2 with endTime := some w3.startTime } :: fixWordEnds e (w3 :: r3)
                from rfl]
            simp
        obtain ⟨z, zs, hz⟩ := List.exists_cons_of_ne_nil hne
        rw [hz, List.getLast?_cons_cons, ← hz] at hx
        exact ih3 x hx

theorem inferEndTimes_spec (ls : List TimedLine) :
    (inferEndTimes ls).map (fun l => l.startTime) = ls.map (fun l => l.startTime) ∧
    List.Chain' (fun a b => a.endTime = some b.startTime) (inferEndTimes ls) ∧
    (∀ l ∈ (inferEndTimes ls).getLast?,
      l.endTime = some (JSNum.add l.startTime (.num 5))) ∧
    ∀ l ∈ inferEndTimes ls,
      List.Chain' (fun u v => u.endTime = some v.startTime) l.words ∧
      ∀ w ∈ l.words.getLast?, w.endTime = l.endTime := by
  induction ls with
  | nil =>
    exact ⟨rfl, by simp [inferEndTimes], by simp [inferEndTimes], by simp [inferEndTimes]⟩
  | cons l ls ih =>
    cases ls with
    | nil =>
      obtain ⟨f1, f2, f3⟩ := fixWordEnds_spec (JSNum.add l.startTime (.num 5)) l.words
      have hstep : inferEndTimes [l] =
          [{ l with
              endTime := some (JSNum.add l.startTime (.num 5))
              words := fixWordEnds (JSNum.add l.startTime (.num 5)) l.words }] := rfl
      rw [hstep]
      refine ⟨rfl, by simp, ?_, ?_⟩
      · intro x hx
        simp only [List.getLast?_singleton, Option.mem_def, Option.some.injEq] at hx
        subst hx
        rfl
      · intro l2 hl2
        simp only [List.mem_singleton] at hl2
        subst hl2
        exact ⟨f2, fun w hw => f3 w hw⟩
    | cons l2 rest =>
      obtain ⟨ih1, ih2, ih3, ih4⟩ := ih
      obtain ⟨f1, f2, f3⟩ := fixWordEnds_spec l2.startTime l.words
      have hstep : inferEndTimes (l :: l2 :: rest) =
          { l with
              endTime := some l2.startTime
              words := fixWordEnds l2.startTime l.words } ::
            inferEndTimes (l2 :: rest) := rfl
      have hne : inferEndTimes (l2 :: rest) ≠ [] := by
        cases rest with
        | nil => simp [inferEndTimes]
        | cons l3 r3 =>
          rw [show inferEndTimes (l2 :: l3 :: r3) =
              { l2 with
                  endTime := some l3.startTime
                  words := fixWordEnds l3.startTime l2.words } ::
                inferEndTimes (l3 :: r3) from rfl]
          simp
      refine ⟨?_, ?_, ?_, ?_⟩
      · rw [hstep]
        simp only [List.map_cons] at ih1 ⊢
        rw [ih1]
      · rw [hstep, List.chain'_cons']
        refine ⟨?_, ih2⟩
        intro y hy
        cases rest with
        | nil =>
          rw [show inferEndTimes [l2] =
              [{ l2 with
                  endTime := some (JSNum.add l2.startTime (.num 5))
                  words := fixWordEnds (JSNum.add l2.startTime (.num 5)) l2.words }]
              from rfl] at hy
          simp only [List.head?_cons, Option.mem_def, Option.some.injEq] at hy
          subst hy
          rfl
        | cons l3 r3 =>
          rw [show inferEndTimes (l2 :: l3 :: r3) =
              { l2 with
                  endTime := some l3.startTime
                  words := fixWordEnds l3.startTime l2.words } ::
                inferEndTimes (l3 :: r3) from rfl] at hy
          simp only [List.head?_cons, Option.mem_def, Option.some.injEq] at hy
          subst hy
          rfl
      · intro x hx
        rw [hstep] at hx
        obtain ⟨z, zs, hz⟩ := List.exists_cons_of_ne_nil hne
        rw [hz, List.getLast?_cons_cons, ← hz] at hx
        exact ih3 x hx
      · intro l3 hl3
        rw [hstep] at hl3
        rcases List.mem_cons.mp hl3 with rfl | hl3
        · exact ⟨f2, fun w hw => f3 w hw⟩
        · exact ih4 l3 hl3

/-- C5: in the output of the LRC/ELRC parser, every line's endTime equals
the next line's startTime, the last line's endTime equals its own
startTime plus 5 seconds; within every line each word's endTime equals
the next word's startTime and the last word's endTime equals the line's
endTime. -/
theorem lrc_end_time_inference (text : JStr) :
    List.Chain' (fun a b => a.endTime = some b.startTime) (parseLRC text).lines ∧
    (∀ l ∈ (parseLRC text).lines.getLast?,
      l.endTime = some (JSNum.add l.startTime (.num 5))) ∧
    ∀ l ∈ (parseLRC text).lines,
      List.Chain' (fun u v => u.endTime = some v.startTime) l.words ∧
      ∀ w ∈ l.words.getLast?, w.endTime = l.endTime := by
  obtain ⟨-, h2, h3, h4⟩ := inferEndTimes_spec (sortByStart (lrcCollect text).2)
  exact ⟨h2, h3, h4⟩

/-- witness for C5: the single line of "[00:01.00]Hi" ends 5 seconds
after its start. -/
theorem lrc_end_time_inference_witness :
    ∃ l, (parseLRC ("[00:01.00]Hi".toList)).lines.getLast? = some l ∧
      l.endTime = some (JSNum.add l.startTime (.num 5)) := by
  cases hm : (parseLRC ("[00:01.00]Hi".toList)).lines.getLast? with
  | none => exact absurd hm (by with_unfolding_all decide)
  | some l =>
    exact ⟨l, rfl, (lrc_end_time_inference ("[00:01.00]Hi".toList)).2.1 l
      (Option.mem_def.mpr hm)⟩

/-! ### Multiple leading timestamps (C4) -/

theorem isDigitCh_bounds {c : Char} (h : isDigitCh c = true) :
    48 ≤ c.toNat ∧ c.toNat ≤ 57 := by
  unfold isDigitCh at h
  simpa using h

theorem toLower_digit {c : Char} (h : isDigitCh c = true) : Char.toLower c = c := by
  have hb := isDigitCh_bounds h
  unfold Char.toLower
  rw [if_neg]
  omega

theorem dropWhile_append_last {p : Char → Bool} {l : JStr} {c : Char}
    (hc : p c = false) : (l ++ [c]).dropWhile p = l.dropWhile p ++ [c] := by
  induction l with
  | nil => simp [List.dropWhile, hc]
  | cons a as ih => by_cases ha : p a <;> simp [List.dropWhile_cons, ha, ih]

theorem trimRight_cons_head {c : Char} {xs : JStr} (hc : isWS c = false) :
    ∃ ys, trimRight (c :: xs) = c :: ys := by
  unfold trimRight
  rw [show (c :: xs).reverse = xs.reverse ++ [c] from by simp]
  rw [dropWhile_append_last hc]
  refine ⟨(List.dropWhile isWS xs.reverse).reverse, ?_⟩
  simp

theorem trimLeft_cons {c : Char} {xs : JStr} (hc : isWS c = false) :
    trimLeft (c :: xs) = c :: xs := by
  simp [trimLeft, List.dropWhile_cons, hc]

theorem jsTrim_cons_head {c : Char} {xs : JStr} (hc : isWS c = false) :
    ∃ ys, jsTrim (c :: xs) = c :: ys := by
  unfold jsTrim
  rw [trimLeft_cons hc]
  exact trimRight_cons_head hc

theorem extractTimestampsAux_succ (fuel : Nat) (content : JStr) (li : Nat) :
    extractTimestampsAux (fuel + 1) content li =
      match lrcExec content li with
      | (some (idx, t, len), li') =>
        if idx = 0 then
          let p := extractTimestampsAux fuel (jsTrim (content.drop len)) 0
          (t :: p.1, p.2)
        else ([], content, li')
      | (none, li') => ([], content, li') := rfl

theorem extractTimestamps_ne_nil_match {content : JStr}
    (h : (extractTimestamps content 0).1 ≠ []) :
    ∃ t rest, matchTimeTag '[' ']' content = some (t, rest) := by
  cases hm : matchTimeTag '[' ']' content with
  | some tr =>
    obtain ⟨t0, r0⟩ := tr
    exact ⟨t0, r0, rfl⟩
  | none =>
    exfalso
    apply h
    cases content with
    | nil => rfl
    | cons c r =>
      show (extractTimestampsAux ((c :: r).length + 1) (c :: r) 0).1 = []
      rw [extractTimestampsAux_succ]
      have hsearch : regexSearchLine (c :: r) =
          (match regexSearchLine r with
           | some (p, t, len) => some (p + 1, t, len)
           | none => none) := by
        simp only [regexSearchLine, hm]
      cases hs : regexSearchLine r with
      | none =>
        have hex : lrcExec (c :: r) 0 = (none, 0) := by
          unfold lrcExec
          rw [if_neg (by simp), List.drop_zero, hsearch, hs]
        rw [hex]
      | some ptl =>
        obtain ⟨p, t, len⟩ := ptl
        have hsc : regexSearchLine (c :: r) = some (p + 1, t, len) := by
          rw [hsearch, hs]
        have hex : lrcExec (c :: r) 0 =
            (some (0 + (p + 1), t, len), 0 + (p + 1) + len) := by
          unfold lrcExec
          rw [if_neg (by simp), List.drop_zero, hsc]
        rw [hex]
        dsimp only
        rw [if_neg (by omega)]

theorem matchTimeTag_shape {openCh closeCh : Char} {s : JStr} {t : ℚ} {rest : JStr}
    (h : matchTimeTag openCh closeCh s = some (t, rest)) :
    ∃ d r, s = openCh :: d :: r ∧ isDigitCh d = true := by
  cases s with
  | nil => simp [matchTimeTag] at h
  | cons c s1 =>
    simp only [matchTimeTag] at h
    by_cases hc : c = openCh
    · rw [if_pos hc] at h
      cases s1 with
      | nil => simp [digitSplits] at h
      | cons d r =>
        by_cases hd : isDigitCh d = true
        · exact ⟨d, r, by rw [hc], hd⟩
        · rw [Bool.not_eq_true] at hd
          simp [digitSplits, hd] at h
    · rw [if_neg hc] at h
      simp at h

theorem matchMeta_key {content : JStr} {kv : JStr × JStr}
    (hm : matchMeta content = some kv) :
    ∃ rest, content = '[' :: rest ∧ kv.1 = rest.takeWhile metaKeyChar ∧
      kv.1 ≠ [] := by
  unfold matchMeta at hm
  split at hm
  · rename_i rest
    dsimp only at hm
    split at hm
    · split at hm
      · exact absurd hm (by simp)
      · rename_i hk
        split at hm
        · simp only [Option.some.injEq] at hm
          subst hm
          exact ⟨rest, rfl, rfl, hk⟩
        · exact absurd hm (by simp)
    · exact absurd hm (by simp)
  · exact absurd hm (by simp)

theorem digit_metaKeyChar {c : Char} (h : isDigitCh c = true) : metaKeyChar c = true := by
  simp [metaKeyChar, h]

theorem lrcProcessLine_timestamped (m : Metadata) (li : Nat) (rawLine : JStr)
    (hk : (extractTimestamps (jsTrim rawLine) 0).1 ≠ []) :
    lrcProcessLine m li rawLine = lrcTimestampLine m li (jsTrim rawLine) := by
  obtain ⟨t, rest, hmt⟩ := extractTimestamps_ne_nil_match hk
  obtain ⟨d, r, hshape, hd⟩ := matchTimeTag_shape hmt
  unfold lrcProcessLine
  have hcne : jsTrim rawLine ≠ [] := by rw [hshape]; simp
  rw [if_neg hcne]
  cases hmm : matchMeta (jsTrim rawLine) with
  | none => rfl
  | some kv =>
    obtain ⟨rest2, hc2, hk1, hkne⟩ := matchMeta_key hmm
    have hr2 : rest2 = d :: r := by
      have h12 := hc2.symm.trans hshape
      simpa using h12
    subst hr2
    have hkey : ∃ kr, kv.1 = d :: kr := by
      refine ⟨List.takeWhile metaKeyChar r, ?_⟩
      rw [hk1, List.takeWhile_cons, digit_metaKeyChar hd]
      simp
    obtain ⟨kr, hkr⟩ := hkey
    have hsw : startsWithDigit (jsTrim (toLowerStr kv.1)) = true := by
      rw [hkr]
      simp only [toLowerStr, List.map_cons, toLower_digit hd]
      obtain ⟨ys, hys⟩ := @jsTrim_cons_head _ (kr.map Char.toLower) (digit_not_ws hd)
      rw [hys]
      simpa [startsWithDigit] using hd
    dsimp only
    rw [hsw]
    rfl

theorem elrcStep_texts (parts : List JStr) :
    ∀ a1 a2 : ℚ × List TimedWord,
      a1.2.map (fun w => w.text) = a2.2.map (fun w => w.text) →
      (parts.foldl elrcStep a1).2.map (fun w => w.text) =
        (parts.foldl elrcStep a2).2.map (fun w => w.text) := by
  induction parts with
  | nil => exact fun a1 a2 h => h
  | cons p ps ih =>
    intro a1 a2 h
    simp only [List.foldl_cons]
    apply ih
    unfold elrcStep
    cases matchTimeTag '<' '>' p with
    | some tv => exact h
    | none =>
      dsimp only
      by_cases hw : jsTrim p ≠ [] <;> simp [hw, h]

theorem buildWordsELRC_texts (t1 t2 : ℚ) (parts : List JStr) :
    (buildWordsELRC t1 parts).map (fun w => w.text) =
      (buildWordsELRC t2 parts).map (fun w => w.text) :=
  elrcStep_texts parts (t1, []) (t2, []) rfl

theorem lrcBuildLine_texts (voice : JStr) (bg hw : Bool) (content : JStr)
    (t1 t2 : ℚ) :
    (lrcBuildLine voice bg hw content t1).rawText =
      (lrcBuildLine voice bg hw content t2).rawText ∧
    (lrcBuildLine voice bg hw content t1).words.map (fun w => w.text) =
      (lrcBuildLine voice bg hw content t2).words.map (fun w => w.text) := by
  have htext : (if hw then
        buildWordsELRC t1 ((splitTags content).filter fun p => jsTrim p ≠ [])
      else buildWordsPlain t1 content).map (fun w => w.text) =
      (if hw then
        buildWordsELRC t2 ((splitTags content).filter fun p => jsTrim p ≠ [])
      else buildWordsPlain t2 content).map (fun w => w.text) := by
    cases hw
    · simp [buildWordsPlain, List.map_map]
    · simpa using buildWordsELRC_texts t1 t2 _
  constructor
  · show (if _ ≠ [] then _ else content) = (if _ ≠ [] then _ else content)
    rw [show joinSpace ((if hw then
        buildWordsELRC t1 ((splitTags content).filter fun p => jsTrim p ≠ [])
      else buildWordsPlain t1 content).map (fun w => w.text)) =
      joinSpace ((if hw then
        buildWordsELRC t2 ((splitTags content).filter fun p => jsTrim p ≠ [])
      else buildWordsPlain t2 content).map (fun w => w.text)) from by rw [htext]]
  · exact htext

theorem lrcTimestampLine_spec (m : Metadata) (li : Nat) (content : JStr)
    (hk : (extractTimestamps content li).1 ≠ []) :
    (lrcTimestampLine m li content).2.2.length =
      (extractTimestamps content li).1.length ∧
    (lrcTimestampLine m li content).2.2.map (fun l => l.startTime) =
      (extractTimestamps content li).1.map (fun t => .num t) ∧
    ∀ l1 ∈ (lrcTimestampLine m li content).2.2,
      ∀ l2 ∈ (lrcTimestampLine m li content).2.2,
        l1.rawText = l2.rawText ∧
        l1.words.map (fun w => w.text) = l2.words.map (fun w => w.text) := by
  unfold lrcTimestampLine
  rw [if_neg hk]
  dsimp only
  refine ⟨by simp, ?_, ?_⟩
  · rw [List.map_map]
    apply List.map_congr_left
    intro t ht
    rfl
  · intro l1 h1 l2 h2
    obtain ⟨t1, ht1, rfl⟩ := List.mem_map.mp h1
    obtain ⟨t2, ht2, rfl⟩ := List.mem_map.mp h2
    exact lrcBuildLine_texts _ _ _ _ t1 t2

/-- C4 counterexample: the lineTimeRegex of line 76 is global and
shared by every line, and its lastIndex is reset only after an index-0
match (line 129).  A line whose leftover content holds a mid-line
bracketed timestamp - "[00:01.00]foo [00:02.00]bar" - leaves lastIndex
at 14, past that stale match; the next raw line "[00:03.00]baz" is only
13 characters long, so exec fails there and the line's leading
timestamp is never matched at index 0: although a fresh-state
extraction finds its timestamp (3 s), the two-line parse produces a
single TimedLine, and none carries "baz".  The claimed per-line rule
is therefore false of the program. -/
theorem lrc_stale_regex_drops_line :
    (extractTimestamps ("[00:03.00]baz".toList) 0).1 = [(3 : ℚ)] ∧
    (lrcProcessLine {} 0 ("[00:01.00]foo [00:02.00]bar".toList)).2.1 = 14 ∧
    (lrcProcessLine {} 14 ("[00:03.00]baz".toList)).2.2 = [] ∧
    (parseLRC ("[00:01.00]foo [00:02.00]bar\n[00:03.00]baz".toList)).lines.map
        (fun l => l.rawText) = ["foo [00:02.00]bar".toList] := by
  refine ⟨?_, ?_, ?_, ?_⟩ <;> with_unfolding_all decide

/-- C4 (amended): when the shared regex enters a line with a fresh
state (lastIndex 0, as at the start of the text and after any line
whose leftover content holds no further bracketed timestamp), a text
line beginning with k >= 1 consecutive bracketed timestamps followed by
remaining text produces exactly k separate TimedLines, one per
timestamp in order, all sharing the same remaining text (same rawText
and same word texts); in particular the one-line text
"[00:01.00][00:05.00]Chorus" yields two lines, both with rawText
"Chorus", with start times 1.00 and 5.00.  With a stale lastIndex the
rule fails: such a line can produce no TimedLine at all. -/
theorem lrc_multi_timestamp_lines (m : Metadata) (rawLine : JStr)
    (hk : (extractTimestamps (jsTrim rawLine) 0).1 ≠ []) :
    ((lrcProcessLine m 0 rawLine).2.2.length =
        (extractTimestamps (jsTrim rawLine) 0).1.length ∧
      (lrcProcessLine m 0 rawLine).2.2.map (fun l => l.startTime) =
        (extractTimestamps (jsTrim rawLine) 0).1.map (fun t => .num t) ∧
      ∀ l1 ∈ (lrcProcessLine m 0 rawLine).2.2,
        ∀ l2 ∈ (lrcProcessLine m 0 rawLine).2.2,
          l1.rawText = l2.rawText ∧
          l1.words.map (fun w => w.text) = l2.words.map (fun w => w.text)) ∧
    (parseLRC ("[00:01.00][00:05.00]Chorus".toList)).lines.map
        (fun l => (l.rawText, l.startTime)) =
      [("Chorus".toList, .num 1), ("Chorus".toList, .num 5)] := by
  refine ⟨?_, by with_unfolding_all decide⟩
  rw [lrcProcessLine_timestamped m 0 rawLine hk]
  exact lrcTimestampLine_spec m 0 (jsTrim rawLine) hk

/-- witness for C4 (amended) at the chorus input. -/
theorem lrc_multi_timestamp_lines_witness :
    ((extractTimestamps (jsTrim ("[00:01.00][00:05.00]Chorus".toList)) 0).1 ≠ []) ∧
    (lrcProcessLine {} 0 ("[00:01.00][00:05.00]Chorus".toList)).2.2.length =
      (extractTimestamps (jsTrim ("[00:01.00][00:05.00]Chorus".toList)) 0).1.length := by
  refine ⟨by with_unfolding_all decide, ?_⟩
  exact ((lrc_multi_timestamp_lines {} ("[00:01.00][00:05.00]Chorus".toList)
    (by with_unfolding_all decide)).1).1

/-! ### TTML claims -/

/-- C7: when the parsed markup has no locatable body element (as for
malformed XML, whose parser-error document has no body), parseTTML
returns a document whose lines sequence is empty; the embedding is total,
so no failure is thrown. -/
theorem ttml_no_body_empty_lines (xmlDoc : XMLNode)
    (h : getElementsByTagName ("body".toList) xmlDoc = []) :
    (parseTTML xmlDoc).lines = [] := by
  unfold parseTTML
  rw [h]
  rfl

/-- witness for C7: a bare root element with no body. -/
theorem ttml_no_body_empty_lines_witness :
    getElementsByTagName ("body".toList) (XMLNode.element ("tt".toList) [] []) = [] ∧
    (parseTTML (XMLNode.element ("tt".toList) [] [])).lines = [] := by
  have hb : getElementsByTagName ("body".toList) (XMLNode.element ("tt".toList) [] []) = [] := by
    unfold getElementsByTagName
    rfl
  exact ⟨hb, ttml_no_body_empty_lines _ hb⟩

/-- C9 counterexample: in ttmlC9Doc the first word starts 1 s after the
line start but no word after the first does, yet generateTTML emits
itunes:timing="Word": the source tests every word, not only those after
the first. -/
theorem ttml_timing_not_after_first :
    ttmlTimingMode ttmlC9Doc = "Word".toList ∧
    generateTTML ttmlC9Doc = ttmlHeadPre ++ "Word".toList ++ ttmlAfterTiming ttmlC9Doc ∧
    ¬specWordSyncAfterFirst ttmlC9Doc := by
  have hw : ttmlTimingMode ttmlC9Doc = "Word".toList := by with_unfolding_all decide
  refine ⟨hw, ?_, ?_⟩
  · unfold generateTTML
    rw [hw]
  · unfold specWordSyncAfterFirst
    with_unfolding_all decide

/-- C9 (amended): generateTTML emits the itunes:timing attribute as
"Word" exactly when some line has more than one word and some word (the
first included) starts more than 0.05 s after the line's own startTime,
and as "Line" otherwise. -/
theorem ttml_timing_mode_word_iff (doc : LyricsDocument) :
    (ttmlTimingMode doc = "Word".toList ∨ ttmlTimingMode doc = "Line".toList) ∧
    (ttmlTimingMode doc = "Word".toList ↔
      ∃ l ∈ doc.lines, 1 < l.words.length ∧
        ∃ w ∈ l.words, w.startTime.gtB (l.startTime.add (.num (1/20))) = true) ∧
    generateTTML doc = ttmlHeadPre ++ ttmlTimingMode doc ++ ttmlAfterTiming doc := by
  have hkey : (doc.lines.any fun l =>
      decide (l.words.length > 1) &&
        l.words.any fun w => w.startTime.gtB (l.startTime.add (.num (1/20)))) = true ↔
      ∃ l ∈ doc.lines, 1 < l.words.length ∧
        ∃ w ∈ l.words, w.startTime.gtB (l.startTime.add (.num (1/20))) = true := by
    rw [List.any_eq_true]
    constructor
    · rintro ⟨l, hl, hb⟩
      rw [Bool.and_eq_true, decide_eq_true_eq, List.any_eq_true] at hb
      exact ⟨l, hl, hb.1, hb.2⟩
    · rintro ⟨l, hl, h1, hw⟩
      refine ⟨l, hl, ?_⟩
      rw [Bool.and_eq_true, decide_eq_true_eq, List.any_eq_true]
      exact ⟨h1, hw⟩
  refine ⟨?_, ?_, rfl⟩
  · unfold ttmlTimingMode
    dsimp only
    by_cases h : (doc.lines.any fun l =>
        decide (l.words.length > 1) &&
          l.words.any fun w => w.startTime.gtB (l.startTime.add (.num (1/20)))) = true
    · left
      rw [if_pos h]
    · right
      rw [if_neg h]
  · unfold ttmlTimingMode
    dsimp only
    by_cases h : (doc.lines.any fun l =>
        decide (l.words.length > 1) &&
          l.words.any fun w => w.startTime.gtB (l.startTime.add (.num (1/20)))) = true
    · rw [if_pos h]
      exact ⟨fun _ => hkey.mp h, fun _ => rfl⟩
    · rw [if_neg h]
      constructor
      · intro hcon
        exact absurd hcon (by decide)
      · intro hex
        exact absurd (hkey.mpr hex) h

/-! ### C2: sortedness and stability of the line order -/

theorem numLE_nan_left (b : JSNum) : numLE .nan b = true := by
  cases b <;> rfl

theorem numLE_nan_right (a : JSNum) : numLE a .nan = true := by
  cases a <;> rfl

theorem numLE_refl (a : JSNum) : numLE a a = true := by
  cases a with
  | nan => rfl
  | inf p => cases p <;> rfl
  | num q =>
    show decide (q + -q ≤ 0) = true
    rw [decide_eq_true_eq]
    simp

theorem numLE_inf_num (p : Bool) (c : ℚ) : numLE (.inf p) (.num c) = !p := rfl

theorem numLE_num_inf (c : ℚ) (q : Bool) : numLE (.num c) (.inf q) = q := by
  cases q <;> rfl

theorem numLE_inf_inf (p q : Bool) : numLE (.inf p) (.inf q) = (!p || q) := by
  cases p <;> cases q <;> rfl

theorem numLE_num_num (a b : ℚ) : numLE (.num a) (.num b) = decide (a ≤ b) := by
  show decide (a + -b ≤ 0) = decide (a ≤ b)
  rw [decide_eq_decide]
  constructor <;> intro h <;> linarith

theorem numLE_total (a b : JSNum) : numLE a b = true ∨ numLE b a = true := by
  cases a with
  | nan => exact Or.inl (numLE_nan_left b)
  | inf p =>
    cases b with
    | nan => exact Or.inl (numLE_nan_right _)
    | inf q => rw [numLE_inf_inf, numLE_inf_inf]; cases p <;> cases q <;> simp
    | num c => rw [numLE_inf_num, numLE_num_inf]; cases p <;> simp
  | num a =>
    cases b with
    | nan => exact Or.inl (numLE_nan_right _)
    | inf q => rw [numLE_num_inf, numLE_inf_num]; cases q <;> simp
    | num b =>
      rw [numLE_num_num, numLE_num_num]
      rcases le_total a b with h | h
      · exact Or.inl (decide_eq_true h)
      · exact Or.inr (decide_eq_true h)

theorem numLE_trans (a b c : JSNum) (hb : b ≠ .nan)
    (h1 : numLE a b = true) (h2 : numLE b c = true) : numLE a c = true := by
  cases a with
  | nan => exact numLE_nan_left c
  | inf p =>
    cases c with
    | nan => exact numLE_nan_right _
    | inf r =>
      cases b with
      | nan => exact absurd rfl hb
      | inf q =>
        rw [numLE_inf_inf] at h1
        rw [numLE_inf_inf] at h2
        rw [numLE_inf_inf]
        cases p <;> cases q <;> cases r <;> simp_all
      | num m =>
        rw [numLE_inf_num] at h1
        rw [numLE_num_inf] at h2
        rw [numLE_inf_inf]
        cases p <;> cases r <;> simp_all
    | num cc =>
      cases b with
      | nan => exact absurd rfl hb
      | inf q =>
        rw [numLE_inf_inf] at h1
        rw [numLE_inf_num] at h2
        rw [numLE_inf_num]
        cases p <;> cases q <;> simp_all
      | num m =>
        rw [numLE_inf_num] at h1 ⊢
        exact h1
  | num aa =>
    cases c with
    | nan => exact numLE_nan_right _
    | inf r =>
      cases b with
      | nan => exact absurd rfl hb
      | inf q =>
        rw [numLE_num_inf] at h1
        rw [numLE_inf_inf] at h2
        rw [numLE_num_inf]
        cases q <;> cases r <;> simp_all
      | num m =>
        rw [numLE_num_inf] at h2 ⊢
        exact h2
    | num cc =>
      cases b with
      | nan => exact absurd rfl hb
      | inf q =>
        rw [numLE_num_inf] at h1
        rw [numLE_inf_num] at h2
        cases q <;> simp_all
      | num m =>
        rw [numLE_num_num] at h1
        rw [numLE_num_num] at h2
        rw [numLE_num_num]
        rw [decide_eq_true_eq] at h1 h2 ⊢
        exact h1.trans h2

theorem orderedInsertLine_mem {x y : TimedLine} {acc : List TimedLine}
    (h : y ∈ orderedInsertLine x acc) : y = x ∨ y ∈ acc := by
  induction acc with
  | nil =>
    simp only [orderedInsertLine, List.mem_singleton] at h
    exact Or.inl h
  | cons a as ih =>
    simp only [orderedInsertLine] at h
    by_cases hle : startLE a x = true
    · rw [if_pos hle] at h
      rcases List.mem_cons.mp h with rfl | h2
      · exact Or.inr (List.mem_cons_self _ _)
      · rcases ih h2 with h3 | h3
        · exact Or.inl h3
        · exact Or.inr (List.mem_cons_of_mem _ h3)
    · rw [if_neg hle] at h
      rcases List.mem_cons.mp h with rfl | h2
      · exact Or.inl rfl
      · exact Or.inr h2

theorem orderedInsertLine_pairwise {x : TimedLine} {acc : List TimedLine}
    (hacc : List.Pairwise (fun a b => startLE a b = true) acc) :
    List.Pairwise (fun a b => startLE a b = true) (orderedInsertLine x acc) := by
  induction acc with
  | nil => simp [orderedInsertLine]
  | cons a as ih =>
    have hpa := List.pairwise_cons.mp hacc
    simp only [orderedInsertLine]
    by_cases hle : startLE a x = true
    · rw [if_pos hle]
      rw [List.pairwise_cons]
      refine ⟨?_, ih hpa.2⟩
      intro y hy
      rcases orderedInsertLine_mem hy with rfl | h2
      · exact hle
      · exact hpa.1 y h2
    · rw [if_neg hle]
      have hanan : a.startTime ≠ .nan := by
        intro hn
        apply hle
        show numLE a.startTime x.startTime = true
        rw [hn]
        exact numLE_nan_left _
      have hxa : startLE x a = true := by
        rcases numLE_total x.startTime a.startTime with h | h
        · exact h
        · exact absurd h hle
      rw [List.pairwise_cons]
      constructor
      · intro y hy
        rcases List.mem_cons.mp hy with rfl | h2
        · exact hxa
        · exact numLE_trans x.startTime a.startTime y.startTime hanan hxa (hpa.1 y h2)
      · exact hacc

theorem orderedInsertLine_filter (x : TimedLine) (acc : List TimedLine) (t : JSNum)
    (hacc : List.Pairwise (fun a b => startLE a b = true) acc) :
    (orderedInsertLine x acc).filter (fun y => decide (y.startTime = t)) =
      acc.filter (fun y => decide (y.startTime = t)) ++
        (if x.startTime = t then [x] else []) := by
  induction acc with
  | nil =>
    simp only [orderedInsertLine, List.filter_cons, List.filter_nil, List.nil_append]
    by_cases hx : x.startTime = t
    · rw [if_pos (decide_eq_true hx), if_pos hx]
    · rw [if_neg (by simpa using hx), if_neg hx]
  | cons a as ih =>
    have hpa := List.pairwise_cons.mp hacc
    simp only [orderedInsertLine]
    by_cases hle : startLE a x = true
    · rw [if_pos hle]
      by_cases ha : a.startTime = t <;>
        simp [List.filter_cons, ih hpa.2, ha, List.append_assoc]
    · rw [if_neg hle]
      by_cases hx : x.startTime = t
      · have hat : a.startTime ≠ t := by
          intro hat
          apply hle
          show numLE a.startTime x.startTime = true
          rw [hat, hx]
          exact numLE_refl t
        have hcl : ∀ z ∈ as, z.startTime ≠ t := by
          intro z hz hzt
          apply hle
          have h1 : startLE a z = true := hpa.1 z hz
          show numLE a.startTime x.startTime = true
          have h1' : numLE a.startTime z.startTime = true := h1
          rw [hzt] at h1'
          rw [hx]
          exact h1'
        have hfilter : (a :: as).filter (fun y => decide (y.startTime = t)) = [] := by
          rw [List.filter_eq_nil_iff]
          intro z hz
          rcases List.mem_cons.mp hz with rfl | hz2
          · simp [hat]
          · simp [hcl z hz2]
        rw [List.filter_cons, if_pos (decide_eq_true hx), hfilter, if_pos hx]
        rfl
      · rw [List.filter_cons, if_neg (by simpa using hx), if_neg hx, List.append_nil]

theorem sortByStart_spec (l : List TimedLine) :
    List.Pairwise (fun a b => startLE a b = true) (sortByStart l) ∧
    ∀ t : JSNum, (sortByStart l).filter (fun y => decide (y.startTime = t)) =
      l.filter (fun y => decide (y.startTime = t)) := by
  suffices hgen : ∀ (acc : List TimedLine),
      List.Pairwise (fun a b => startLE a b = true) acc →
      List.Pairwise (fun a b => startLE a b = true)
        (l.foldl (fun acc x => orderedInsertLine x acc) acc) ∧
      ∀ t : JSNum,
        (l.foldl (fun acc x => orderedInsertLine x acc) acc).filter
            (fun y => decide (y.startTime = t)) =
          acc.filter (fun y => decide (y.startTime = t)) ++
            l.filter (fun y => decide (y.startTime = t)) by
    obtain ⟨h1, h2⟩ := hgen [] List.Pairwise.nil
    exact ⟨h1, fun t => by simpa using h2 t⟩
  induction l with
  | nil => intro acc hacc; exact ⟨hacc, fun t => by simp⟩
  | cons x xs ih =>
    intro acc hacc
    obtain ⟨g1, g2⟩ := ih (orderedInsertLine x acc) (orderedInsertLine_pairwise hacc)
    refine ⟨g1, fun t => ?_⟩
    rw [List.foldl_cons]
    rw [g2 t, orderedInsertLine_filter x acc t hacc, List.filter_cons]
    by_cases hx : x.startTime = t
    · rw [if_pos hx, if_pos (decide_eq_true hx), List.append_assoc]
      rfl
    · rw [if_neg hx, if_neg (by simpa using hx), List.append_nil]

theorem pairwise_startLE_of_map_eq {L L' : List TimedLine}
    (h : L.map (fun l => l.startTime) = L'.map (fun l => l.startTime))
    (hp : List.Pairwise (fun a b => startLE a b = true) L') :
    List.Pairwise (fun a b => startLE a b = true) L := by
  have hp' : List.Pairwise (fun a b : JSNum => numLE a b = true)
      (L'.map fun l => l.startTime) := List.pairwise_map.mpr hp
  rw [← h] at hp'
  exact List.pairwise_map.mp hp'

theorem pairwise_startLE_of_const (t : JSNum) :
    ∀ L : List TimedLine, (∀ x ∈ L, x.startTime = t) →
      List.Pairwise (fun a b => startLE a b = true) L := by
  intro L
  induction L with
  | nil => intro _; exact List.Pairwise.nil
  | cons a as ih =>
    intro h
    rw [List.pairwise_cons]
    refine ⟨?_, ih fun x hx => h x (List.mem_cons_of_mem _ hx)⟩
    intro b hb
    show numLE a.startTime b.startTime = true
    rw [h a (List.mem_cons_self _ _), h b (List.mem_cons_of_mem _ hb)]
    exact numLE_refl t

theorem parsePlainLines_start (text : JStr) :
    ∀ x ∈ parsePlainLines text, x.startTime = .num 0 := by
  intro x hx
  unfold parsePlainLines at hx
  rcases List.mem_map.mp hx with ⟨l, _, rfl⟩
  rfl

theorem parseTTML_lines_cases (x : XMLNode) :
    (parseTTML x).lines = [] ∨
      ∃ body, (parseTTML x).lines =
        sortByStart (ttmlCollectLines (ttmlMetadata x).1 body) := by
  unfold parseTTML
  cases (getElementsByTagName ("body".toList) x).head? with
  | none => exact Or.inl rfl
  | some body => exact Or.inr ⟨body, rfl⟩

/-- C2: the lines of every parser output come sorted ascending by
startTime under the JS comparator (a, b) => a.startTime - b.startTime
(a NaN comparison counting as a tie), and the stable sort keeps tied
start times in their original encounter order: filtering the sorted
list at any start value returns exactly the encounter-order sublist at
that value.  For parseLRC the start times of the final lines are those
of the sorted encounter-order list (the end-time inference pass only
fills end times). -/
theorem parser_lines_sorted_stable :
    (∀ (text : JStr) (fmt : Option LyricsFormat) (dom : JStr → XMLNode),
      List.Pairwise (fun a b => startLE a b = true) (parseLyrics text fmt dom).lines) ∧
    (∀ text : JStr,
      (parseLRC text).lines.map (fun l => l.startTime) =
        (sortByStart (lrcCollect text).2).map (fun l => l.startTime)) ∧
    (∀ (l : List TimedLine) (t : JSNum),
      (sortByStart l).filter (fun y => decide (y.startTime = t)) =
        l.filter (fun y => decide (y.startTime = t))) := by
  have hsort : ∀ l : List TimedLine,
      List.Pairwise (fun a b => startLE a b = true) (sortByStart l) :=
    fun l => (sortByStart_spec l).1
  have hLRC : ∀ text : JStr,
      List.Pairwise (fun a b => startLE a b = true) (parseLRC text).lines :=
    fun text => pairwise_startLE_of_map_eq (inferEndTimes_spec _).1 (hsort _)
  have hTTML : ∀ x : XMLNode,
      List.Pairwise (fun a b => startLE a b = true) (parseTTML x).lines := by
    intro x
    rcases parseTTML_lines_cases x with h | ⟨body, h⟩
    · rw [h]; exact List.Pairwise.nil
    · rw [h]; exact hsort _
  have hPlain : ∀ text : JStr,
      List.Pairwise (fun a b => startLE a b = true) (parsePlainLines text) :=
    fun text => pairwise_startLE_of_const (.num 0) _ (parsePlainLines_start text)
  refine ⟨?_, fun text => (inferEndTimes_spec _).1, fun l t => (sortByStart_spec l).2 t⟩
  intro text fmt dom
  have hall : ∀ f : LyricsFormat,
      List.Pairwise (fun a b => startLE a b = true)
        (parseLyrics text (some f) dom).lines := by
    intro f
    cases f with
    | LRC => exact hLRC text
    | ELRC => exact hLRC text
    | TTML => exact hTTML (dom text)
    | PLAIN => exact hPlain text
  cases fmt with
  | some f => exact hall f
  | none => exact hall (detectFormat text)

end LyriX
